import Mathlib

/-! hdrbench: quantile library, datasets and histograms

A shallow embedding of `math.go`, `dataset.go` and `experiment.go` of
`octo47/hdrbench`.

Modelling conventions.

* `float64` values are modelled by exact rationals `ℚ`: every value is finite,
  totally ordered and arithmetic is exact (no NaN, no infinities, no rounding).
* `int`/`int64` values are modelled by `ℤ`/`ℕ`; the conversions
  `float64(len)` and `int64(math.Floor x)` are exact.
* A Go run-time panic (index out of range) and `glog.Fatal` are modelled by
  `none`.
* The process-wide `math/rand` source is modelled by an explicit stream of
  non-negative draws, threaded through every function that consumes it; a
  `*rand.Rand` argument is a stream of the same kind, one draw per call.
* Third-party code (the `tsgen` generator, `hdrhistogram`) and the package
  `circonusllhist` enter as parameters or as the few values read back from them.
-/

namespace Hdrbench

/-! ## Rounding and rank selection -/

/-- Go `Round(n float64) int64`:
`if n < 0 { return int64(math.Ceil(n - 0.5)) }; return int64(math.Floor(n + 0.5))`. -/
def Round (n : ℚ) : ℤ :=
  if n < 0 then ⌈n - 1/2⌉ else ⌊n + 1/2⌋

/-- Go `Quantile(numbers []float64, n float64) (float64, int64)`.
The slice lookup `numbers[int(position)]` panics (`none`) when the position is
negative or not below the length. -/
def Quantile (numbers : List ℚ) (n : ℚ) : Option (ℚ × ℤ) :=
  let l : ℤ := (numbers.length : ℤ)
  let position : ℤ := Round ((l : ℚ) * n)
  let position : ℤ := if position ≥ l then l - 1 else position
  if 0 ≤ position then
    numbers[position.toNat]?.map (fun x => (x, position))
  else none

/-- Go `Quantiles(numbers, n)`: one `Quantile` lookup per fraction, in order,
keeping the value and dropping the rank. -/
def Quantiles (numbers : List ℚ) : List ℚ → Option (List ℚ)
  | [] => some []
  | v :: vs =>
    match Quantile numbers v with
    | none => none
    | some (x, _) =>
      match Quantiles numbers vs with
      | none => none
      | some rest => some (x :: rest)

/-- The test vector `s1` of `dataset_test.go` after `Sort()`. -/
def s1Sorted : List ℚ :=
  [1/100, 123/1000, 125/1000, 13/100, 2201/10000, 3201/10000, 41/100, 415/1000, 43/100]

/-! ## Relative difference -/

/-- The constant `epsilon := 10e-16` of `DiffRelative`. -/
def epsilon : ℚ := 10 / 10 ^ 16

/-- Go `DiffRelative(original, derived []float64) []float64`.
`glog.Fatal` on a length mismatch is `none`; otherwise the loop
`for i := range original` fills `rv[i]` from `original[i]` and `derived[i]`. -/
def DiffRelative (original derived : List ℚ) : Option (List ℚ) :=
  if original.length ≠ derived.length then none
  else some (List.zipWith
    (fun o d => if o < epsilon then 0 else |d - o| / |o|) original derived)

/-! ## Random source -/

/-- The `math/rand` source as a stream of non-negative draws: `draws k` is the value
of the `k`-th call, `pos` counts the calls made so far. -/
structure RandSource where
  draws : ℕ → ℕ
  pos : ℕ

/-- Go `rand.Int()`: the next non-negative draw, and the advanced source. -/
def RandSource.next (r : RandSource) : ℕ × RandSource :=
  (r.draws r.pos, { r with pos := r.pos + 1 })

/-! ## Sorting -/

/-- Go `a[i], a[j] = a[j], a[i]`: both right-hand sides are read first, then `a[i]`
and `a[j]` are assigned in that order. `QSortFloat` only swaps cells that exist
(`pivotIndex`, `i`, `left` and `right` are all below `len(a)`), so the default of the
reads is never used. -/
def swap (a : List ℚ) (i j : ℕ) : List ℚ :=
  (a.set i (a.getD j 0)).set j (a.getD i 0)

/-- One iteration of the partition loop of `QSortFloat` on the state `(a, left)`:
`if a[i] < a[right] { a[i], a[left] = a[left], a[i]; left++ }`. -/
def partitionStep (right : ℕ) (st : List ℚ × ℕ) (i : ℕ) : List ℚ × ℕ :=
  if st.1.getD i 0 < st.1.getD right 0 then (swap st.1 i st.2, st.2 + 1) else st

/-- The first `n` iterations `i = 0, …, n-1` of the partition loop, from `left = 0`. -/
def partitionFold (a : List ℚ) (right n : ℕ) : List ℚ × ℕ :=
  (List.range n).foldl (partitionStep right) (a, 0)

/-- The partition loop `for i := range a { … }` of `QSortFloat`. -/
def partitionLoop (a : List ℚ) (right : ℕ) : List ℚ × ℕ :=
  partitionFold a right a.length

/-! ### Termination of `QSortFloat`

The recursion is on `a[:left]` and `a[left+1:]`; both are shorter than `a` because
the partition loop keeps the length and leaves `left ≤ len(a) - 1`. -/

theorem swap_length (a : List ℚ) (i j : ℕ) : (swap a i j).length = a.length := by
  simp [swap]

theorem partitionFold_succ (a : List ℚ) (right n : ℕ) :
    partitionFold a right (n + 1) = partitionStep right (partitionFold a right n) n := by
  simp [partitionFold, List.range_succ, List.foldl_append]

theorem partitionFold_length (a : List ℚ) (right n : ℕ) :
    (partitionFold a right n).1.length = a.length := by
  induction n with
  | zero => rfl
  | succ n ih =>
    rw [partitionFold_succ]
    unfold partitionStep
    split_ifs
    · simpa [swap_length] using ih
    · exact ih

theorem partitionFold_left_le (a : List ℚ) (right n : ℕ) :
    (partitionFold a right n).2 ≤ n ∧ (right < n → (partitionFold a right n).2 + 1 ≤ n) := by
  induction n with
  | zero => exact ⟨le_refl _, fun h => absurd h (Nat.not_lt_zero _)⟩
  | succ n ih =>
    rw [partitionFold_succ]
    unfold partitionStep
    by_cases hr : n = right
    · subst hr
      rw [if_neg (lt_irrefl _)]
      exact ⟨by omega, fun _ => by omega⟩
    · split_ifs
      · exact ⟨by simp; omega, fun h => by simp; omega⟩
      · exact ⟨by omega, fun h => by omega⟩

theorem partitionLoop_left_lt (a : List ℚ) (h : ¬ a.length < 2) :
    (partitionLoop a (a.length - 1)).2 < a.length := by
  have := (partitionFold_left_le a (a.length - 1) a.length).2 (by omega)
  unfold partitionLoop
  omega

/-- Go `QSortFloat(a []float64) []float64`, with the random source threaded through:
the pivot draw, then the recursive call on `a[:left]`, then the one on `a[left+1:]`.
The two recursive calls sort their sub-slices in place, so the returned slice is the
sorted prefix, the pivot cell `a[left]`, and the sorted suffix. -/
def QSortFloat (rnd : RandSource) (a : List ℚ) : List ℚ × RandSource :=
  if _h : a.length < 2 then (a, rnd)
  else
    let right := a.length - 1
    let pivotIndex := rnd.next.1 % a.length
    let a1 := swap a pivotIndex right
    let p := partitionLoop a1 right
    let a3 := swap p.1 p.2 right
    let lo := QSortFloat rnd.next.2 (a3.take p.2)
    let hi := QSortFloat lo.2 (a3.drop (p.2 + 1))
    (lo.1 ++ (a3.drop p.2).take 1 ++ hi.1, hi.2)
termination_by a.length
decreasing_by
  all_goals simp_wf
  · have h1 := partitionLoop_left_lt (swap a (rnd.next.1 % a.length) (a.length - 1))
      (by rw [swap_length]; assumption)
    rw [swap_length] at h1
    simp only [swap_length, partitionLoop, partitionFold_length] at h1 ⊢
    omega
  · simp only [swap_length, partitionLoop, partitionFold_length]
    omega

/-! ## Downsampling -/

/-- The inner loop `for _, qv := range q { switch qv { … } }` of `Downsample` on one
sorted window: `case 1.0` reads `slice[len(slice)-1]` and `case 0.0` reads `slice[0]`,
each lookup panicking (`none`) when out of range. The default case is
`qvals = append(qvals, Quantile(slice, qv))`: `Quantile` has two results and stands
beside another argument of `append`, which Go does not accept, so this case has no
value to append and is `none` as well. -/
def downsampleWindow (slice : List ℚ) : List ℚ → Option (List ℚ)
  | [] => some []
  | qv :: qs =>
    let x : Option ℚ :=
      if qv = 1 then (if slice.length = 0 then none else slice[slice.length - 1]?)
      else if qv = 0 then slice[0]?
      else none
    match x with
    | none => none
    | some x =>
      match downsampleWindow slice qs with
      | none => none
      | some rest => some (x :: rest)

/-- The outer loop `for i := 0; i < len(values); i += step` of `Downsample`, from
index `i`, returning the values appended to `qvals` from there on. The loop does not
terminate for `step = 0` when `q` is empty, so it runs on fuel: `none` is a panic,
exhausted fuel, or the default case of the inner loop. -/
def downsampleLoop (values : List ℚ) (step : ℕ) (q : List ℚ) :
    ℕ → ℕ → RandSource → Option (List ℚ × RandSource)
  | 0, i, rnd => if i < values.length then none else some ([], rnd)
  | fuel + 1, i, rnd =>
    if i < values.length then
      let subLen := if i + step > values.length then values.length - i else step
      let slice := (values.drop i).take subLen
      let sorted := QSortFloat rnd slice
      match downsampleWindow sorted.1 q with
      | none => none
      | some w =>
        match downsampleLoop values step q fuel (i + step) sorted.2 with
        | none => none
        | some (rest, rnd') => some (w ++ rest, rnd')
    else some ([], rnd)

/-- Go `Downsample(values []float64, step int, q []float64) []float64`.
`make([]float64, 0, step)` panics for a negative `step`; with `step ≥ 1` the loop
runs at most `len(values)` times, which is the fuel given. -/
def Downsample (rnd : RandSource) (values : List ℚ) (step : ℤ) (q : List ℚ) :
    Option (List ℚ × RandSource) :=
  if step < 0 then none
  else downsampleLoop values step.toNat q values.length 0 rnd

/-- Specification side of `Downsample`: the consecutive windows of `step` elements
of `values`, the last one possibly shorter. -/
def windows (step : ℕ) (values : List ℚ) : List (List ℚ) :=
  if _h : 0 < step ∧ values ≠ [] then values.take step :: windows step (values.drop step)
  else []
termination_by values.length
decreasing_by
  simp_wf
  have := List.length_pos.mpr _h.2
  omega

/-! ## Datasets (`dataset.go`) -/

/-- Go `type Dataset struct`. -/
structure Dataset where
  name : String
  dataset : List ℚ
  min : ℚ
  max : ℚ
  mean : ℚ
  upperBound : ℚ
  lowerBound : ℚ

/-- One iteration of the loop of `NewDataset` on the state `(sum, min, max)`:
`sum += v; if min > v { min = v }; if max < v { max = v }`.
The accumulators `min` and `max` start at `math.Inf(1)` and `math.Inf(-1)`; `none`
stands for that infinite start value, against which both tests succeed. -/
def datasetStep (st : ℚ × Option ℚ × Option ℚ) (v : ℚ) : ℚ × Option ℚ × Option ℚ :=
  (st.1 + v,
   (match st.2.1 with
    | none => some v
    | some m => if m > v then some v else some m),
   (match st.2.2 with
    | none => some v
    | some m => if m < v then some v else some m))

/-- Go `NewDataset(name string, dataset []float64, upper, lower float64) *Dataset`.
For an empty `dataset` the Go fields `min`, `max` and `mean` are `+Inf`, `-Inf` and
`NaN`; the rational model has no such values and the result is `none`. -/
def NewDataset (name : String) (dataset : List ℚ) (upper lower : ℚ) : Option Dataset :=
  match dataset.foldl datasetStep (0, none, none) with
  | (sum, some min, some max) =>
    let lower := if lower > min then min else lower
    let upper := if upper < max then max else upper
    let mean := sum / (dataset.length : ℚ)
    some { name := name, min := min, max := max, mean := mean, dataset := dataset,
           upperBound := upper, lowerBound := lower }
  | _ => none

/-- The values produced by the third-party generator
`generator.NewCombineGenerator(…).Next(&points)` that `NewLatencyDataset` builds from
its seeds, bounds and length: `gen baseSeed mixinSeed min max n i` is `points[i].Value`. -/
abbrev Generator := ℕ → ℕ → ℚ → ℚ → ℕ → ℕ → ℚ

/-- Go `NewLatencyDataset(name, baseSeed, mixinSeed, min, max, n)`: the `n` generated
values are handed to `NewDataset(name, values, min, max)`. A negative `n` panics in
`make`. -/
def NewLatencyDataset (gen : Generator) (name : String) (baseSeed mixinSeed : ℕ)
    (min max : ℚ) (n : ℤ) : Option Dataset :=
  if n < 0 then none
  else NewDataset name ((List.range n.toNat).map (gen baseSeed mixinSeed min max n.toNat))
    min max

/-- Go `(e *Dataset) Mean()`. -/
def Dataset.Mean (e : Dataset) : ℚ := e.mean

/-- Go `(e *Dataset) Min()`. -/
def Dataset.Min (e : Dataset) : ℚ := e.min

/-- Go `(e *Dataset) Max()`. -/
def Dataset.Max (e : Dataset) : ℚ := e.max

/-- Go `(e *Dataset) UpperBound()`. -/
def Dataset.UpperBound (e : Dataset) : ℚ := e.upperBound

/-- Go `(e *Dataset) LowerBound()`. -/
def Dataset.LowerBound (e : Dataset) : ℚ := e.lowerBound

/-- Go `(e *Dataset) MeanInt(scaleToInt)`. -/
def Dataset.MeanInt (e : Dataset) (scaleToInt : ℚ) : ℤ := Round (e.mean * scaleToInt)

/-- Go `(e *Dataset) MinInt(scaleToInt)`. -/
def Dataset.MinInt (e : Dataset) (scaleToInt : ℚ) : ℤ := Round (e.min * scaleToInt)

/-- Go `(e *Dataset) MaxInt(scaleToInt)`. -/
def Dataset.MaxInt (e : Dataset) (scaleToInt : ℚ) : ℤ := Round (e.max * scaleToInt)

/-- The test vector `s1` of `dataset_test.go`, in source order. -/
def s1 : List ℚ :=
  [123/1000, 1/100, 43/100, 41/100, 415/1000, 2201/10000, 3201/10000, 125/1000, 13/100]

/-! ## The Exact histogram (`experiment.go`, `preciseHistogram`) -/

/-- Go slice expression `a[start:stop]` on a slice whose capacity is its length (as
`Dataset.dataset` is): it panics (`none`) unless `0 ≤ start ≤ stop ≤ len(a)`. -/
def sliceRange (a : List ℚ) (start stop : ℤ) : Option (List ℚ) :=
  if 0 ≤ start ∧ start ≤ stop ∧ stop ≤ (a.length : ℤ) then
    some ((a.drop start.toNat).take (stop.toNat - start.toNat))
  else none

/-- Go `type preciseHistogram struct { merged []float64; sorted bool }`. -/
structure preciseHistogram where
  merged : List ℚ
  sorted : Bool

/-- Go `NewPreceiseHist()`: an empty buffer, the `sorted` flag at its zero value. -/
def NewPreceiseHist : preciseHistogram :=
  { merged := [], sorted := false }

/-- Go `(hhist *preciseHistogram) Reset()`: only `merged` is replaced. -/
def preciseHistogram.Reset (hhist : preciseHistogram) : preciseHistogram :=
  { hhist with merged := [] }

/-- The loop `for _, dataset := range datasets { hhist.merged = append(hhist.merged,
dataset.dataset[start:stop]...) }` of `preciseHistogram.RecordValues`. -/
def preciseAppend : List ℚ → List Dataset → ℤ → ℤ → Option (List ℚ)
  | merged, [], _, _ => some merged
  | merged, d :: ds, start, stop =>
    match sliceRange d.dataset start stop with
    | none => none
    | some s => preciseAppend (merged ++ s) ds start stop

/-- Go `(hhist *preciseHistogram) RecordValues(datasets, start, stop) error`: the flag
is cleared and the slices are appended; the returned error is always `nil`, and
`none` is a slice-bounds panic. -/
def preciseHistogram.RecordValues (hhist : preciseHistogram) (datasets : List Dataset)
    (start stop : ℤ) : Option preciseHistogram :=
  (preciseAppend hhist.merged datasets start stop).map
    (fun m => { merged := m, sorted := false })

/-- The block `if !hhist.sorted { hhist.merged = QSortFloat(hhist.merged);
hhist.sorted = true }` that opens both `Quantiles` and `ValueAtQuantile`. -/
def preciseHistogram.ensureSorted (hhist : preciseHistogram) (rnd : RandSource) :
    preciseHistogram × RandSource :=
  if !hhist.sorted then
    ({ merged := (QSortFloat rnd hhist.merged).1, sorted := true },
      (QSortFloat rnd hhist.merged).2)
  else (hhist, rnd)

/-- Go `(hhist *preciseHistogram) Quantiles(qin) ([]float64, error)`: the result (the
error is always `nil`), the histogram and the random source afterwards. -/
def preciseHistogram.Quantiles (hhist : preciseHistogram) (rnd : RandSource)
    (qin : List ℚ) : Option (List ℚ × preciseHistogram × RandSource) :=
  (Hdrbench.Quantiles (hhist.ensureSorted rnd).1.merged qin).map
    (fun out => (out, (hhist.ensureSorted rnd).1, (hhist.ensureSorted rnd).2))

/-- Go `(hhist *preciseHistogram) ValueAtQuantile(qin float64) int64`: it returns the
second result of `Quantile`, named `count` in the source. -/
def preciseHistogram.ValueAtQuantile (hhist : preciseHistogram) (rnd : RandSource)
    (qin : ℚ) : Option (ℤ × preciseHistogram × RandSource) :=
  (Quantile (hhist.ensureSorted rnd).1.merged qin).map
    (fun r => (r.2, (hhist.ensureSorted rnd).1, (hhist.ensureSorted rnd).2))

/-- The calls a client can make on a `preciseHistogram`. -/
inductive PreciseOp where
  | reset
  | recordValues (datasets : List Dataset) (start stop : ℤ)
  | quantiles (qin : List ℚ)
  | valueAtQuantile (qin : ℚ)

/-- The effect of one call on the histogram and the random source; `none` when the
call panics. -/
def PreciseOp.apply (op : PreciseOp) (st : preciseHistogram × RandSource) :
    Option (preciseHistogram × RandSource) :=
  match op with
  | .reset => some (st.1.Reset, st.2)
  | .recordValues datasets start stop =>
    (st.1.RecordValues datasets start stop).map (fun h => (h, st.2))
  | .quantiles qin => (st.1.Quantiles st.2 qin).map (fun r => r.2)
  | .valueAtQuantile qin => (st.1.ValueAtQuantile st.2 qin).map (fun r => r.2)

/-- A sequence of calls, each made on the state the previous one left. -/
def runOps : List PreciseOp → preciseHistogram × RandSource →
    Option (preciseHistogram × RandSource)
  | [], st => some st
  | op :: ops, st =>
    match op.apply st with
    | none => none
    | some st' => runOps ops st'

/-- Specification side: the samples `dataset[start:stop]` of the datasets of one
`RecordValues` call, in call order. -/
def slicesOf (datasets : List Dataset) (start stop : ℤ) : List ℚ :=
  (datasets.map (fun d => (sliceRange d.dataset start stop).getD [])).flatten

/-- Specification side: the samples recorded so far by a sequence of calls, on top of
the samples `acc` recorded before it; `Reset` discards them, queries record nothing. -/
def recordedSamples : List ℚ → List PreciseOp → List ℚ
  | acc, [] => acc
  | _, .reset :: ops => recordedSamples [] ops
  | acc, .recordValues datasets start stop :: ops =>
    recordedSamples (acc ++ slicesOf datasets start stop) ops
  | acc, .quantiles _ :: ops => recordedSamples acc ops
  | acc, .valueAtQuantile _ :: ops => recordedSamples acc ops

/-- The answer of `Quantiles(q)` asked of a fresh `preciseHistogram` after a sequence
of calls (`none` when a call or the query panics). -/
def quantilesAfter (ops : List PreciseOp) (rnd : RandSource) (q : List ℚ) :
    Option (List ℚ) :=
  match runOps ops (NewPreceiseHist, rnd) with
  | none => none
  | some st => (st.1.Quantiles st.2 q).map Prod.fst

/-- Two small datasets used as concrete inputs. -/
def dsA : Dataset :=
  { name := "ds1", dataset := [3, 1, 2, 5], min := 1, max := 5, mean := 11 / 4,
    upperBound := 5, lowerBound := 1 }

/-- The second concrete dataset. -/
def dsB : Dataset :=
  { name := "ds2", dataset := [4, 0, 9, 7], min := 0, max := 9, mean := 5,
    upperBound := 9, lowerBound := 0 }

/-! ## The Fixed-Precision histogram (`experiment.go`, `hdrHistogram`) -/

/-- The third-party `hdrhistogram.Histogram`, reduced to what `experiment.go` reads
back from it: the three configuration values its accessors `LowestTrackableValue()`,
`HighestTrackableValue()` and `SignificantFigures()` return, and the recorded values. -/
structure hdrhistogram.Histogram where
  lowestTrackableValue : ℤ
  highestTrackableValue : ℤ
  significantFigures : ℤ
  recorded : List ℤ

/-- Third-party `hdrhistogram.New(minValue, maxValue, sigfigs)`: an empty histogram
with the given configuration. -/
def hdrhistogram.New (minValue maxValue sigfigs : ℤ) : hdrhistogram.Histogram :=
  { lowestTrackableValue := minValue, highestTrackableValue := maxValue,
    significantFigures := sigfigs, recorded := [] }

/-- Go `type hdrHistogram struct { merged *hdrhistogram.Histogram; scaleToInt float64 }`. -/
structure hdrHistogram where
  merged : hdrhistogram.Histogram
  scaleToInt : ℚ

/-- Go `NewHdrHist(min, max int64, sigDigits int, scaleToInt float64)`. -/
def NewHdrHist (min max : ℤ) (sigDigits : ℤ) (scaleToInt : ℚ) : hdrHistogram :=
  { merged := hdrhistogram.New min max sigDigits, scaleToInt := scaleToInt }

/-- Go `(hhist *hdrHistogram) Reset()`:
`hhist.merged = hdrhistogram.New(0, 10^6, int(hhist.merged.SignificantFigures()))`.
In Go `^` between integers is bitwise exclusive or. -/
def hdrHistogram.Reset (hhist : hdrHistogram) : hdrHistogram :=
  { hhist with
    merged := hdrhistogram.New 0 ((10 ^^^ 6 : ℕ) : ℤ) hhist.merged.significantFigures }

/-! ## The Log-Linear histogram (`experiment.go`, `circonusHistogram`) -/

/-- The operations of the package `circonusllhist` that `circonusHistogram` calls, on
a histogram type `H` with error type `E`: `New()`, `RecordValue(v) error` (the
histogram after the call, or the error) and `Merge(other)`. -/
structure circonusllhist (H E : Type) where
  New : H
  RecordValue : H → ℚ → Except E H
  Merge : H → H → H

/-- The loop `for _, v := range dataset.dataset[start:stop]` of one worker of
`circonusHistogram.RecordValues`, on the scratch histogram `hist`: the first error is
kept (`errors[idx] = err; return`), otherwise the histogram is kept
(`results[idx] = hist`). -/
def circonusWorker {H E : Type} (lib : circonusllhist H E) : H → List ℚ → Except E H
  | hist, [] => .ok hist
  | hist, v :: vs =>
    match lib.RecordValue hist v with
    | .error err => .error err
    | .ok hist' => circonusWorker lib hist' vs

/-- The workers of `circonusHistogram.RecordValues`, each run to completion, in
dataset order: entry `i` is `.ok results[i]` or `.error errors[i]`. A slice-bounds
panic in a worker ends the process (`none`). -/
def circonusWorkers {H E : Type} (lib : circonusllhist H E) :
    List Dataset → ℤ → ℤ → Option (List (Except E H))
  | [], _, _ => some []
  | d :: ds, start, stop =>
    match sliceRange d.dataset start stop with
    | none => none
    | some s =>
      match circonusWorkers lib ds start stop with
      | none => none
      | some rest => some (circonusWorker lib lib.New s :: rest)

/-- The loop after `wg.Wait()` in `circonusHistogram.RecordValues`:
`for i := range results { if errors[i] != nil { return errors[i] };
hhist.merged.Merge(results[i]) }; return nil`. It returns the running total and the
returned error. -/
def circonusMergeLoop {H E : Type} (lib : circonusllhist H E) :
    H → List (Except E H) → H × Option E
  | merged, [] => (merged, none)
  | merged, .error err :: _ => (merged, some err)
  | merged, .ok r :: rest => circonusMergeLoop lib (lib.Merge merged r) rest

/-- Go `(hhist *circonusHistogram) RecordValues(datasets, start, stop) error`, on the
running total `merged`: the running total afterwards and the returned error. -/
def circonusHistogram.RecordValues {H E : Type} (lib : circonusllhist H E) (merged : H)
    (datasets : List Dataset) (start stop : ℤ) : Option (H × Option E) :=
  match circonusWorkers lib datasets start stop with
  | none => none
  | some results => some (circonusMergeLoop lib merged results)

/-- A concrete histogram for examples: it keeps the list of recorded values, refuses
negative values, and merges by concatenation. -/
def listHist : circonusllhist (List ℚ) Unit :=
  { New := [],
    RecordValue := fun h v => if v < 0 then .error () else .ok (h ++ [v]),
    Merge := fun a b => a ++ b }

/-- A concrete dataset whose first sample is negative. -/
def dsNeg : Dataset :=
  { name := "neg", dataset := [-1, 6, 2, 8], min := -1, max := 8, mean := 15 / 4,
    upperBound := 8, lowerBound := -1 }

/-! ## Latency signals (`dataset.go`, `NewLatencyDatasets`) -/

/-- The arguments of one call `NewLatencyDataset(name, baseSeed, mixinSeed, min, max, n)`
made by `NewLatencyDatasets` (`n` is the same for all calls). -/
structure LatencyArgs where
  name : String
  baseSeed : ℕ
  mixinSeed : ℕ
  min : ℚ
  max : ℚ

/-- The first loop of `NewLatencyDatasets`, `count` iterations from index `idx`:
`baseSeed := rnd.Int63()`, then `NewLatencyDataset("lowLatency"+strconv.Itoa(idx),
baseSeed, mixinSeed, 1.0, 1500.0, n)` with the `mixinSeed` declared before the loop. -/
def lowLatencyArgs (mixinSeed : ℕ) : ℕ → ℕ → RandSource → List LatencyArgs × RandSource
  | 0, _, rnd => ([], rnd)
  | count + 1, idx, rnd =>
    let baseSeed := rnd.next.1
    let rest := lowLatencyArgs mixinSeed count (idx + 1) rnd.next.2
    ({ name := "lowLatency" ++ toString idx, baseSeed := baseSeed, mixinSeed := mixinSeed,
       min := 1, max := 1500 } :: rest.1, rest.2)

/-- The second loop of `NewLatencyDatasets`, `count` iterations from index `idx`:
`baseSeed := rnd.Int63(); mixinSeed := rnd.Int63(); minLat := float64(rnd.Intn(100))`,
then `NewLatencyDataset("highLatancy"+strconv.Itoa(idx), baseSeed, mixinSeed,
minLat+1500.0, 10000.0, n)`. `rnd.Intn(100)` is one more draw, reduced modulo `100`. -/
def highLatencyArgs : ℕ → ℕ → RandSource → List LatencyArgs × RandSource
  | 0, _, rnd => ([], rnd)
  | count + 1, idx, rnd =>
    let baseSeed := rnd.next.1
    let mixinSeed := rnd.next.2.next.1
    let minLat : ℚ := ((rnd.next.2.next.2.next.1 % 100 : ℕ) : ℚ)
    let rest := highLatencyArgs count (idx + 1) rnd.next.2.next.2.next.2
    ({ name := "highLatancy" ++ toString idx, baseSeed := baseSeed, mixinSeed := mixinSeed,
       min := minLat + 1500, max := 10000 } :: rest.1, rest.2)

/-- The calls of `NewLatencyDataset` made by `NewLatencyDatasets(rnd, n, datasets,
outliers)`, in index order, and the random source afterwards:
`mixinSeed := rnd.Int63()`, then the first loop, then the second. -/
def latencySignalArgs (rnd : RandSource) (datasets outliers : ℕ) :
    List LatencyArgs × RandSource :=
  let mixinSeed := rnd.next.1
  let low := lowLatencyArgs mixinSeed datasets 0 rnd.next.2
  let high := highLatencyArgs outliers datasets low.2
  (low.1 ++ high.1, high.2)

/-- The datasets built from a list of `NewLatencyDataset` calls, in order. -/
def buildLatencyDatasets (gen : Generator) (n : ℤ) : List LatencyArgs → Option (List Dataset)
  | [] => some []
  | a :: rest =>
    match NewLatencyDataset gen a.name a.baseSeed a.mixinSeed a.min a.max n with
    | none => none
    | some d =>
      match buildLatencyDatasets gen n rest with
      | none => none
      | some ds => some (d :: ds)

/-- Go `NewLatencyDatasets(rnd *rand.Rand, n, datasets, outliers int) []*Dataset`.
With a negative `datasets` or `outliers` the call panics (in `make`, or at the first
`ds[idx]` outside the allocated slice). -/
def NewLatencyDatasets (gen : Generator) (rnd : RandSource) (n datasets outliers : ℤ) :
    Option (List Dataset × RandSource) :=
  if datasets < 0 ∨ outliers < 0 then none
  else
    match buildLatencyDatasets gen n
        (latencySignalArgs rnd datasets.toNat outliers.toNat).1 with
    | none => none
    | some ds => some (ds, (latencySignalArgs rnd datasets.toNat outliers.toNat).2)

/-- A concrete generator for examples: it echoes its inputs, the values of a signal
being its base seed, its mixin seed, then its declared minimum. -/
def echoGen : Generator :=
  fun baseSeed mixinSeed min _ _ i =>
    if i = 0 then (baseSeed : ℚ) else if i = 1 then (mixinSeed : ℚ) else min

/-! ## Theorems: rounding -/

theorem Round_nonneg {x : ℚ} (hx : 0 ≤ x) : 0 ≤ Round x := by
  unfold Round
  rw [if_neg (not_lt.mpr hx)]
  exact Int.floor_nonneg.mpr (by linarith)

theorem Round_natCast (m : ℕ) : Round (m : ℚ) = m := by
  unfold Round
  rw [if_neg (not_lt.mpr (Nat.cast_nonneg m))]
  rw [Int.floor_eq_iff]
  constructor
  · push_cast; linarith
  · push_cast; linarith

theorem Round_abs_sub_le (n : ℚ) : |((Round n : ℤ) : ℚ) - n| ≤ 1 / 2 := by
  unfold Round
  split_ifs with h
  · have h1 := Int.le_ceil (n - 1 / 2)
    have h2 := Int.ceil_lt_add_one (n - 1 / 2)
    rw [abs_le]; constructor <;> linarith
  · have h1 := Int.floor_le (n + 1 / 2)
    have h2 := Int.lt_floor_add_one (n + 1 / 2)
    rw [abs_le]; constructor <;> linarith

theorem Round_neg (n : ℚ) : Round (-n) = -Round n := by
  rcases lt_trichotomy n 0 with h | h | h
  · have h' : ¬ (-n < 0) := by linarith
    unfold Round
    rw [if_neg h', if_pos h]
    rw [show -n + 1 / 2 = -(n - 1 / 2) by ring, Int.floor_neg]
  · subst h
    unfold Round
    norm_num
  · have h' : -n < 0 := by linarith
    have h'' : ¬ (n < 0) := by linarith
    unfold Round
    rw [if_pos h', if_neg h'']
    rw [show -n - 1 / 2 = -(n + 1 / 2) by ring, Int.ceil_neg]

theorem Round_half (k : ℤ) : Round ((k : ℚ) + 1 / 2) = if 0 ≤ k then k + 1 else k := by
  unfold Round
  by_cases hk : 0 ≤ k
  · have hq : (0 : ℚ) ≤ k := by exact_mod_cast hk
    rw [if_neg (by linarith), if_pos hk]
    rw [Int.floor_eq_iff]
    constructor
    · push_cast; linarith
    · push_cast; linarith
  · have hk' : k + 1 ≤ 0 := by omega
    have hq : (k : ℚ) + 1 ≤ 0 := by exact_mod_cast hk'
    rw [if_pos (by linarith), if_neg hk]
    rw [Int.ceil_eq_iff]
    constructor
    · linarith
    · linarith

/-- C9. `Round` is round-half-away-from-zero over exact arithmetic: the result is
within `1/2` of the argument, at a midpoint `k + 1/2` it is the neighbour of
larger magnitude (`Round 0.5 = 1`, `Round (-0.5) = -1`, `Round 2.5 = 3`), and
`Round (-n) = -Round n`. -/
theorem Round_half_away_from_zero (n : ℚ) :
    |((Round n : ℤ) : ℚ) - n| ≤ 1 / 2
    ∧ (∀ k : ℤ, n = (k : ℚ) + 1 / 2 →
        (Round n = k ∨ Round n = k + 1) ∧ |k| ≤ |Round n| ∧ |k + 1| ≤ |Round n|)
    ∧ Round (-n) = -Round n
    ∧ Round (1 / 2) = 1 ∧ Round (-(1 / 2)) = -1 ∧ Round (5 / 2) = 3 := by
  refine ⟨Round_abs_sub_le n, ?_, Round_neg n, ?_, ?_, ?_⟩
  · intro k hk
    subst hk
    rw [Round_half]
    by_cases h : 0 ≤ k
    · rw [if_pos h]
      refine ⟨Or.inr rfl, ?_, le_refl _⟩
      have h1 : 0 ≤ k + 1 := by omega
      rw [abs_of_nonneg h, abs_of_nonneg h1]
      omega
    · rw [if_neg h]
      refine ⟨Or.inl rfl, le_refl _, ?_⟩
      have h1 : k < 0 := by omega
      have h2 : k + 1 ≤ 0 := by omega
      rw [abs_of_neg h1, abs_of_nonpos h2]
      omega
  · have := Round_half 0
    simpa using this
  · have := Round_half (-1)
    norm_num at this
    exact this
  · have := Round_half 2
    norm_num at this
    exact this

/-- Instance of C9 at the midpoint `2.5 = 2 + 1/2`. -/
theorem Round_half_away_from_zero_witness :
    ((5 / 2 : ℚ) = ((2 : ℤ) : ℚ) + 1 / 2) ∧ Round (5 / 2) = 3
    ∧ |(2 : ℤ)| ≤ |Round (5 / 2)| ∧ |(2 : ℤ) + 1| ≤ |Round (5 / 2)| := by
  have h : (5 / 2 : ℚ) = ((2 : ℤ) : ℚ) + 1 / 2 := by norm_num
  have t := Round_half_away_from_zero (5 / 2)
  exact ⟨h, t.2.2.2.2.2, (t.2.1 2 h).2.1, (t.2.1 2 h).2.2⟩

/-! ## Theorems: rank selection -/

theorem Quantile_eq_of_rank (v : List ℚ) (f : ℚ) (k : ℕ) (hk : k < v.length)
    (h : (k : ℤ) = min (Round ((v.length : ℚ) * f)) ((v.length : ℤ) - 1)) :
    Quantile v f = some (v[k], (k : ℤ)) := by
  have hpos : (if Round (((v.length : ℤ) : ℚ) * f) ≥ (v.length : ℤ) then (v.length : ℤ) - 1
      else Round (((v.length : ℤ) : ℚ) * f)) = (k : ℤ) := by
    rw [h, Int.cast_natCast]
    split_ifs with hc
    · rw [min_eq_right (by omega)]
    · rw [min_eq_left (by omega)]
  unfold Quantile
  simp only [hpos]
  rw [if_pos (Int.natCast_nonneg k)]
  simp [List.getElem?_eq_getElem hk]

theorem Quantile_rank_exists (v : List ℚ) (f : ℚ) (hv : v ≠ []) (h0 : 0 ≤ f) :
    ∃ (k : ℕ) (hk : k < v.length),
      (k : ℤ) = min (Round ((v.length : ℚ) * f)) ((v.length : ℤ) - 1)
      ∧ k ≤ v.length - 1
      ∧ Quantile v f = some (v[k], (k : ℤ)) := by
  have hlen : 0 < v.length := List.length_pos.mpr hv
  have hr : 0 ≤ Round ((v.length : ℚ) * f) :=
    Round_nonneg (mul_nonneg (Nat.cast_nonneg _) h0)
  have hm : 0 ≤ min (Round ((v.length : ℚ) * f)) ((v.length : ℤ) - 1) :=
    le_min hr (by omega)
  have hm' : min (Round ((v.length : ℚ) * f)) ((v.length : ℤ) - 1) ≤ (v.length : ℤ) - 1 :=
    min_le_right _ _
  have hk : (min (Round ((v.length : ℚ) * f)) ((v.length : ℤ) - 1)).toNat < v.length := by
    omega
  have hc : (((min (Round ((v.length : ℚ) * f)) ((v.length : ℤ) - 1)).toNat : ℕ) : ℤ)
      = min (Round ((v.length : ℚ) * f)) ((v.length : ℤ) - 1) := Int.toNat_of_nonneg hm
  exact ⟨_, hk, hc, by omega, Quantile_eq_of_rank v f _ hk hc⟩

/-- C1. For a non-empty `v` and `0 ≤ f ≤ 1`, `Quantile v f` returns `(v[k], k)` with
`k = min (Round (len v * f)) (len v - 1)`, and `0 ≤ k ≤ len v - 1` is a valid index
of `v`. -/
theorem Quantile_nearest_rank (v : List ℚ) (f : ℚ) (hv : v ≠ []) (h0 : 0 ≤ f) (_h1 : f ≤ 1) :
    ∃ (k : ℕ) (hk : k < v.length),
      (k : ℤ) = min (Round ((v.length : ℚ) * f)) ((v.length : ℤ) - 1)
      ∧ k ≤ v.length - 1
      ∧ Quantile v f = some (v[k], (k : ℤ)) :=
  Quantile_rank_exists v f hv h0

theorem Round_eq_of_bounds {x : ℚ} {z : ℤ} (h0 : 0 ≤ x) (h1 : (z : ℚ) ≤ x + 1 / 2)
    (h2 : x + 1 / 2 < (z : ℚ) + 1) : Round x = z := by
  unfold Round
  rw [if_neg (not_lt.mpr h0), Int.floor_eq_iff]
  exact ⟨h1, h2⟩

/-- Instances of C1 on the test inputs: `Quantile([1,2], 0.5) = 2` at rank `1`, and on
the sorted `s1` the fractions `0.25` and `0.5` give `0.125` (rank `2`) and `0.3201`
(rank `5`). -/
theorem Quantile_nearest_rank_witness :
    (([1, 2] : List ℚ) ≠ [] ∧ (0 : ℚ) ≤ 1 / 2 ∧ (1 / 2 : ℚ) ≤ 1
      ∧ Quantile [1, 2] (1 / 2) = some (2, 1))
    ∧ (s1Sorted ≠ [] ∧ (0 : ℚ) ≤ 1 / 4 ∧ (1 / 4 : ℚ) ≤ 1
      ∧ Quantile s1Sorted (1 / 4) = some (125 / 1000, 2))
    ∧ Quantile s1Sorted (1 / 2) = some (3201 / 10000, 5) := by
  refine ⟨⟨by simp, by norm_num, by norm_num, ?_⟩,
    ⟨by simp [s1Sorted], by norm_num, by norm_num, ?_⟩, ?_⟩
  · obtain ⟨k, hk, hk1, -, hq⟩ :=
      Quantile_nearest_rank [1, 2] (1 / 2) (by simp) (by norm_num) (by norm_num)
    have hR : Round (((([1, 2] : List ℚ).length : ℕ) : ℚ) * (1 / 2)) = 1 :=
      Round_eq_of_bounds (by norm_num) (by norm_num) (by norm_num)
    rw [hR] at hk1
    have hk' : k = 1 := by
      simp at hk1
      omega
    subst hk'
    simpa using hq
  · obtain ⟨k, hk, hk1, -, hq⟩ :=
      Quantile_nearest_rank s1Sorted (1 / 4) (by simp [s1Sorted]) (by norm_num) (by norm_num)
    have hR : Round (((s1Sorted.length : ℕ) : ℚ) * (1 / 4)) = 2 :=
      Round_eq_of_bounds (by norm_num [s1Sorted]) (by norm_num [s1Sorted])
        (by norm_num [s1Sorted])
    rw [hR] at hk1
    have hk' : k = 2 := by
      simp [s1Sorted] at hk1
      omega
    subst hk'
    simpa [s1Sorted] using hq
  · obtain ⟨k, hk, hk1, -, hq⟩ :=
      Quantile_nearest_rank s1Sorted (1 / 2) (by simp [s1Sorted]) (by norm_num) (by norm_num)
    have hR : Round (((s1Sorted.length : ℕ) : ℚ) * (1 / 2)) = 5 :=
      Round_eq_of_bounds (by norm_num [s1Sorted]) (by norm_num [s1Sorted])
        (by norm_num [s1Sorted])
    rw [hR] at hk1
    have hk' : k = 5 := by
      simp [s1Sorted] at hk1
      omega
    subst hk'
    simpa [s1Sorted] using hq

/-- C2. For a non-empty ascending `v`, `Quantile v 0` returns the minimum of `v` (its
first element, rank `0`) and `Quantile v 1` returns the maximum of `v` (its last
element, rank `len v - 1`). -/
theorem Quantile_zero_one_sorted (v : List ℚ) (hv : v ≠ []) (hs : v.Sorted (· ≤ ·)) :
    ∃ lo hi : ℚ,
      Quantile v 0 = some (lo, 0)
      ∧ Quantile v 1 = some (hi, (v.length : ℤ) - 1)
      ∧ lo ∈ v ∧ hi ∈ v ∧ (∀ x ∈ v, lo ≤ x ∧ x ≤ hi) := by
  have hlen : 0 < v.length := List.length_pos.mpr hv
  have h0 : ((0 : ℕ) : ℤ) = min (Round ((v.length : ℚ) * 0)) ((v.length : ℤ) - 1) := by
    rw [mul_zero, show (0 : ℚ) = ((0 : ℕ) : ℚ) by norm_num, Round_natCast]
    rw [min_eq_left (by omega)]
  have h1 : ((v.length - 1 : ℕ) : ℤ)
      = min (Round ((v.length : ℚ) * 1)) ((v.length : ℤ) - 1) := by
    rw [mul_one, Round_natCast, min_eq_right (by omega)]
    omega
  have hq0 := Quantile_eq_of_rank v 0 0 hlen h0
  have hq1 := Quantile_eq_of_rank v 1 (v.length - 1) (by omega) h1
  refine ⟨v[0], v[v.length - 1], by simpa using hq0, ?_, List.getElem_mem _, List.getElem_mem _, ?_⟩
  · rw [hq1]
    congr 2
    omega
  · intro x hx
    obtain ⟨i, hi, rfl⟩ := List.getElem_of_mem hx
    have hp := List.pairwise_iff_getElem.mp hs
    constructor
    · rcases Nat.eq_zero_or_pos i with h | h
      · subst h; exact le_refl _
      · exact hp 0 i hlen hi h
    · rcases Nat.lt_or_ge i (v.length - 1) with h | h
      · exact hp i (v.length - 1) hi (by omega) h
      · have : i = v.length - 1 := by omega
        subst this; exact le_refl _

/-- Instance of C2 on the sorted two-element list `[1, 2]`. -/
theorem Quantile_zero_one_sorted_witness :
    ([1, 2] : List ℚ) ≠ [] ∧ ([1, 2] : List ℚ).Sorted (· ≤ ·)
    ∧ ∃ lo hi : ℚ,
      Quantile [1, 2] 0 = some (lo, 0)
      ∧ Quantile [1, 2] 1 = some (hi, (([1, 2] : List ℚ).length : ℤ) - 1)
      ∧ lo ∈ ([1, 2] : List ℚ) ∧ hi ∈ ([1, 2] : List ℚ)
      ∧ (∀ x ∈ ([1, 2] : List ℚ), lo ≤ x ∧ x ≤ hi) :=
  ⟨by simp, by simp, Quantile_zero_one_sorted [1, 2] (by simp) (by simp)⟩

/-! ## Theorems: relative difference -/

/-- C3 (the code departs from the claim). On the reference `[-1]` and candidate `[1]`
the guard `original[i] < epsilon` fires although `|-1| ≥ 1e-15`, so the code reports
the error `0` where `|candidate - reference| / |reference|` is `2`. -/
theorem DiffRelative_negative_reference :
    DiffRelative [-1] [1] = some [0]
    ∧ ¬ (|(-1 : ℚ)| < 1 / 10 ^ 15)
    ∧ |(1 : ℚ) - (-1)| / |(-1 : ℚ)| = 2 := by
  refine ⟨?_, ?_, ?_⟩
  · simp [DiffRelative, epsilon]
    norm_num
  · norm_num
  · norm_num

/-- C4. `DiffRelative x x` is the all-zero vector of the length of `x`. -/
theorem DiffRelative_self (x : List ℚ) :
    DiffRelative x x = some (List.replicate x.length 0) := by
  unfold DiffRelative
  rw [if_neg (by simp)]
  congr 1
  induction x with
  | nil => rfl
  | cons a t ih =>
    simp only [List.zipWith_cons_cons, List.length_cons, List.replicate_succ, ih]
    simp

/-- C5. `DiffRelative` fails fatally exactly when the lengths differ; on equal lengths
it returns a vector of that length. -/
theorem DiffRelative_fatal_iff (original derived : List ℚ) :
    (DiffRelative original derived = none ↔ original.length ≠ derived.length)
    ∧ (original.length = derived.length →
        ∃ rv, DiffRelative original derived = some rv ∧ rv.length = original.length) := by
  unfold DiffRelative
  constructor
  · by_cases h : original.length = derived.length
    · simp [h]
    · simp [h]
  · intro h
    refine ⟨_, by rw [if_neg (by simpa using h)], ?_⟩
    simp [h]

/-- Instance of C5 on two vectors of length `2`. -/
theorem DiffRelative_fatal_iff_witness :
    ([1, 2] : List ℚ).length = ([3, 4] : List ℚ).length
    ∧ (∃ rv, DiffRelative [1, 2] [3, 4] = some rv ∧ rv.length = ([1, 2] : List ℚ).length)
    ∧ DiffRelative [1, 2] [3] = none :=
  ⟨rfl, (DiffRelative_fatal_iff [1, 2] [3, 4]).2 rfl,
    (DiffRelative_fatal_iff [1, 2] [3]).1.mpr (by decide)⟩

/-! ## Theorems: sorting -/

theorem getD_swap (a : List ℚ) (i j k : ℕ) (hi : i < a.length) (hj : j < a.length) :
    (swap a i j).getD k 0
      = if k = j then a.getD i 0 else if k = i then a.getD j 0 else a.getD k 0 := by
  unfold swap
  simp only [List.getD_eq_getElem?_getD, List.getElem?_set, List.length_set]
  by_cases h1 : k = j
  · subst h1
    simp [hj]
  · by_cases h2 : k = i
    · subst h2
      simp [h1, hi, Ne.symm h1]
    · simp [h1, h2, Ne.symm h1, Ne.symm h2]

theorem swap_perm (a : List ℚ) (i j : ℕ) (hi : i < a.length) (hj : j < a.length) :
    (swap a i j).Perm a := by
  rw [List.perm_iff_count]
  intro x
  unfold swap
  have hj' : j < (a.set i (a.getD j 0)).length := by simpa using hj
  rw [List.count_set _ _ _ _ hj', List.count_set _ _ _ _ hi]
  have e1 : a.getD i 0 = a[i] := List.getD_eq_getElem _ _ hi
  have e2 : a.getD j 0 = a[j] := List.getD_eq_getElem _ _ hj
  have e3 : (a.set i (a.getD j 0))[j] = a[j] := by
    rw [List.getElem_set]
    split_ifs with h
    · exact e2
    · rfl
  rw [e3, e1, e2]
  have b1 := List.boole_getElem_le_count x a i hi
  have b2 := List.boole_getElem_le_count x a j hj
  split_ifs at b1 b2 ⊢ <;> omega

/-- Invariant of the partition loop after `n` iterations, with pivot value
`a[right]`: the array is a permutation of the initial one, the pivot cell is
untouched, the cells below `left` are smaller than the pivot and the visited cells
from `left` on are not. -/
theorem partitionFold_inv (a : List ℚ) (right n : ℕ) (hr : right < a.length)
    (hn : n ≤ right + 1) :
    (partitionFold a right n).1.Perm a
    ∧ (partitionFold a right n).2 ≤ n
    ∧ (partitionFold a right n).2 ≤ right
    ∧ (partitionFold a right n).1.getD right 0 = a.getD right 0
    ∧ (∀ j, j < (partitionFold a right n).2 →
        (partitionFold a right n).1.getD j 0 < a.getD right 0)
    ∧ (∀ j, (partitionFold a right n).2 ≤ j → j < n → j ≠ right →
        a.getD right 0 ≤ (partitionFold a right n).1.getD j 0) := by
  induction n with
  | zero =>
    refine ⟨List.Perm.refl _, le_refl _, Nat.zero_le _, rfl, ?_, ?_⟩
    · intro j hj; exact absurd hj (Nat.not_lt_zero _)
    · intro j _ hj; exact absurd hj (Nat.not_lt_zero _)
  | succ n ih =>
    obtain ⟨hp, hl, hlr, hpiv, hlo, hhi⟩ := ih (by omega)
    have hlen := partitionFold_length a right n
    rw [partitionFold_succ]
    generalize partitionFold a right n = st at hp hl hlr hpiv hlo hhi hlen
    obtain ⟨b, left⟩ := st
    simp only at hp hl hlr hpiv hlo hhi hlen
    unfold partitionStep
    by_cases hnr : n = right
    · subst hnr
      simp only [lt_irrefl, if_false]
      refine ⟨hp, by omega, hlr, hpiv, hlo, ?_⟩
      intro j h1 h2 h3
      exact hhi j h1 (by omega) h3
    · have hnlt : n < right := by omega
      by_cases htest : b.getD n 0 < b.getD right 0
      · simp only [htest, if_true]
        have hnb : n < b.length := by omega
        have hlb : left < b.length := by omega
        refine ⟨(swap_perm b n left hnb hlb).trans hp, by omega, by omega, ?_, ?_, ?_⟩
        · rw [getD_swap b n left right hnb hlb, if_neg (by omega), if_neg (by omega)]
          exact hpiv
        · intro j hj
          rw [getD_swap b n left j hnb hlb]
          by_cases h1 : j = left
          · rw [if_pos h1, ← hpiv]; exact htest
          · rw [if_neg h1, if_neg (by omega)]
            exact hlo j (by omega)
        · intro j h1 h2 h3
          rw [getD_swap b n left j hnb hlb, if_neg (by omega)]
          by_cases h4 : j = n
          · rw [if_pos h4]
            exact hhi left (le_refl _) (by omega) (by omega)
          · rw [if_neg h4]
            exact hhi j (by omega) (by omega) h3
      · simp only [htest, if_false]
        refine ⟨hp, by omega, hlr, hpiv, hlo, ?_⟩
        intro j h1 h2 h3
        by_cases h4 : j = n
        · subst h4
          rw [← hpiv]; exact not_lt.mp htest
        · exact hhi j h1 (by omega) h3

/-- The state after the partition loop and the final pivot swap: a permutation of
the input whose cell `left` holds the pivot, with only smaller elements before it
and no smaller element after it. -/
theorem partition_final (a : List ℚ) (h : 0 < a.length) :
    (swap (partitionLoop a (a.length - 1)).1 (partitionLoop a (a.length - 1)).2
        (a.length - 1)).Perm a
    ∧ (partitionLoop a (a.length - 1)).2 < a.length
    ∧ ∃ piv : ℚ,
        ((swap (partitionLoop a (a.length - 1)).1 (partitionLoop a (a.length - 1)).2
          (a.length - 1)).drop (partitionLoop a (a.length - 1)).2).take 1 = [piv]
        ∧ (∀ x ∈ (swap (partitionLoop a (a.length - 1)).1
              (partitionLoop a (a.length - 1)).2 (a.length - 1)).take
              (partitionLoop a (a.length - 1)).2, x < piv)
        ∧ (∀ x ∈ (swap (partitionLoop a (a.length - 1)).1
              (partitionLoop a (a.length - 1)).2 (a.length - 1)).drop
              ((partitionLoop a (a.length - 1)).2 + 1), piv ≤ x) := by
  obtain ⟨hp, -, hlr, hpiv, hlo, hhi⟩ :=
    partitionFold_inv a (a.length - 1) a.length (by omega) (by omega)
  have hlen := partitionFold_length a (a.length - 1) a.length
  unfold partitionLoop
  generalize partitionFold a (a.length - 1) a.length = st at hp hlr hpiv hlo hhi hlen
  obtain ⟨b, left⟩ := st
  simp only at hp hlr hpiv hlo hhi hlen ⊢
  have hlb : left < b.length := by omega
  have hrb : a.length - 1 < b.length := by omega
  have hslen : (swap b left (a.length - 1)).length = b.length := swap_length _ _ _
  have hget : ∀ k (hk : k < (swap b left (a.length - 1)).length),
      (swap b left (a.length - 1))[k] = (swap b left (a.length - 1)).getD k 0 :=
    fun k hk => (List.getD_eq_getElem _ _ hk).symm
  refine ⟨(swap_perm b left _ hlb hrb).trans hp, by omega, a.getD (a.length - 1) 0, ?_, ?_, ?_⟩
  · rw [List.take_one_drop_eq_of_lt_length (by omega : left < (swap b left (a.length - 1)).length)]
    simp only [List.get_eq_getElem]
    rw [hget, getD_swap b left _ left hlb hrb]
    by_cases h1 : left = a.length - 1
    · rw [if_pos h1, h1]; rw [hpiv]
    · rw [if_neg h1, if_pos rfl, hpiv]
  · intro x hx
    obtain ⟨i, hi, rfl⟩ := List.mem_take_iff_getElem.mp hx
    have hi' : i < left := by omega
    rw [hget, getD_swap b left _ i hlb hrb, if_neg (by omega), if_neg (by omega)]
    exact hlo i hi'
  · intro x hx
    obtain ⟨i, hi, rfl⟩ := List.mem_drop_iff_getElem.mp hx
    rw [hget, getD_swap b left _ _ hlb hrb]
    by_cases h1 : left + 1 + i = a.length - 1
    · rw [if_pos h1]
      exact hhi left (le_refl _) (by omega) (by omega)
    · rw [if_neg h1, if_neg (by omega)]
      exact hhi _ (by omega) (by omega) h1

/-- The result of `QSortFloat` is an ascending permutation of its input, whatever the
pivot draws. -/
theorem QSortFloat_perm_sorted (n : ℕ) : ∀ (rnd : RandSource) (a : List ℚ), a.length ≤ n →
    (QSortFloat rnd a).1.Perm a ∧ (QSortFloat rnd a).1.Sorted (· ≤ ·) := by
  induction n with
  | zero =>
    intro rnd a ha
    have : a = [] := List.length_eq_zero.mp (by omega)
    subst this
    rw [QSortFloat]
    simp
  | succ n ih =>
    intro rnd a ha
    rw [QSortFloat]
    by_cases h : a.length < 2
    · rw [dif_pos h]
      refine ⟨List.Perm.refl _, ?_⟩
      match a, h with
      | [], _ => simp
      | [x], _ => simp
    · rw [dif_neg h]
      simp only []
      have hs := swap_length a (rnd.next.1 % a.length) (a.length - 1)
      have hsp : (swap a (rnd.next.1 % a.length) (a.length - 1)).Perm a :=
        swap_perm a _ _ (Nat.mod_lt _ (by omega)) (by omega)
      obtain ⟨hp, hlt, piv, hmid, hlo, hhi⟩ :=
        partition_final (swap a (rnd.next.1 % a.length) (a.length - 1)) (by omega)
      rw [hs] at hp hlt hmid hlo hhi
      generalize (partitionLoop (swap a (rnd.next.1 % a.length) (a.length - 1))
        (a.length - 1)) = p at hp hlt hmid hlo hhi
      generalize hb : swap p.1 p.2 (a.length - 1) = b at hp hmid hlo hhi
      have hbl : b.length = a.length := by rw [(hp.trans hsp).length_eq]
      obtain ⟨l1, l2⟩ := ih rnd.next.2 (b.take p.2) (by simp; omega)
      obtain ⟨r1, r2⟩ := ih (QSortFloat rnd.next.2 (b.take p.2)).2 (b.drop (p.2 + 1))
        (by simp; omega)
      rw [hmid]
      constructor
      · have hsplit : b = b.take p.2 ++ [piv] ++ b.drop (p.2 + 1) := by
          rw [← hmid, List.append_assoc, ← List.drop_drop, List.take_append_drop,
            List.take_append_drop]
        refine List.Perm.trans ?_ (hp.trans hsp)
        conv_rhs => rw [hsplit]
        exact (l1.append_right _).append r1
      · rw [List.append_assoc]
        refine List.pairwise_append.mpr ⟨l2, ?_, ?_⟩
        · simp only [List.singleton_append]
          exact List.pairwise_cons.mpr ⟨fun x hx => hhi x (r1.subset hx), r2⟩
        · intro x hx y hy
          have hxp : x < piv := hlo x (l1.subset hx)
          rcases List.mem_append.mp hy with hy | hy
          · rw [List.mem_singleton] at hy
            subst hy; exact le_of_lt hxp
          · exact le_trans (le_of_lt hxp) (hhi y (r1.subset hy))

theorem QSortFloat_eq_insertionSort (rnd : RandSource) (a : List ℚ) :
    (QSortFloat rnd a).1 = a.insertionSort (· ≤ ·) := by
  obtain ⟨hp, hs⟩ := QSortFloat_perm_sorted a.length rnd a (le_refl _)
  exact List.eq_of_perm_of_sorted (hp.trans (List.perm_insertionSort _ a).symm) hs
    (List.sorted_insertionSort _ a)

/-- C6. Whatever the pivot draws, `QSortFloat` returns its input in ascending
(non-decreasing) order. -/
theorem QSortFloat_sorted (rnd : RandSource) (a : List ℚ) :
    (QSortFloat rnd a).1.Sorted (· ≤ ·) :=
  (QSortFloat_perm_sorted a.length rnd a (le_refl _)).2

/-- C7. Whatever the pivot draws, `QSortFloat v` is a permutation of `v`: it holds the
same multiset of elements, so in particular the same number of them. -/
theorem QSortFloat_perm (rnd : RandSource) (v : List ℚ) :
    (QSortFloat rnd v).1.Perm v
    ∧ ((QSortFloat rnd v).1 : Multiset ℚ) = (v : Multiset ℚ)
    ∧ (QSortFloat rnd v).1.length = v.length := by
  have hp := (QSortFloat_perm_sorted v.length rnd v (le_refl _)).1
  exact ⟨hp, Multiset.coe_eq_coe.mpr hp, hp.length_eq⟩

/-- C8. Sorting is idempotent: for all pivot draws of both runs, sorting the sorted
list returns it unchanged. -/
theorem QSortFloat_idempotent (rnd1 rnd2 : RandSource) (v : List ℚ) :
    (QSortFloat rnd2 (QSortFloat rnd1 v).1).1 = (QSortFloat rnd1 v).1 := by
  obtain ⟨-, hs⟩ := QSortFloat_perm_sorted v.length rnd1 v (le_refl _)
  obtain ⟨hp2, hs2⟩ := QSortFloat_perm_sorted (QSortFloat rnd1 v).1.length rnd2
    (QSortFloat rnd1 v).1 (le_refl _)
  exact List.eq_of_perm_of_sorted hp2 hs2 hs

/-! ## Theorems: downsampling -/

theorem Quantile_nil (f : ℚ) : Quantile [] f = none := by
  unfold Quantile
  have h := Round_natCast 0
  simp only [Nat.cast_zero] at h
  simp [h]

theorem Quantile_fst_zero (slice : List ℚ) :
    (Quantile slice 0).map Prod.fst = slice[0]? := by
  cases slice with
  | nil => simp [Quantile_nil]
  | cons a t =>
    have h0 : ((0 : ℕ) : ℤ)
        = min (Round (((a :: t).length : ℚ) * 0)) (((a :: t).length : ℤ) - 1) := by
      rw [mul_zero, show (0 : ℚ) = ((0 : ℕ) : ℚ) by norm_num, Round_natCast]
      rw [min_eq_left (by simp)]
    rw [Quantile_eq_of_rank (a :: t) 0 0 (by simp) h0]
    simp

theorem Quantile_fst_one (slice : List ℚ) :
    (Quantile slice 1).map Prod.fst
      = if slice.length = 0 then none else slice[slice.length - 1]? := by
  cases slice with
  | nil => simp [Quantile_nil]
  | cons a t =>
    have h1 : (((a :: t).length - 1 : ℕ) : ℤ)
        = min (Round (((a :: t).length : ℚ) * 1)) (((a :: t).length : ℤ) - 1) := by
      rw [mul_one, Round_natCast, min_eq_right (by omega)]
      simp
    rw [Quantile_eq_of_rank (a :: t) 1 ((a :: t).length - 1) (by simp) h1]
    simp

/-- The literal first/last-element short-circuit of `Downsample` agrees with the rank
formula: on fractions that are all `0.0` or `1.0` the inner loop computes `Quantiles`
of the window. -/
theorem downsampleWindow_extremes_eq_Quantiles (slice q : List ℚ)
    (hq : ∀ f ∈ q, f = 0 ∨ f = 1) :
    downsampleWindow slice q = Quantiles slice q := by
  induction q with
  | nil => rfl
  | cons qv qs ih =>
    have hx : (if qv = 1 then (if slice.length = 0 then none else slice[slice.length - 1]?)
        else if qv = 0 then slice[0]? else none)
        = (Quantile slice qv).map Prod.fst := by
      split_ifs with h1 h2 h3
      · subst h1; rw [Quantile_fst_one, if_pos h2]
      · subst h1; rw [Quantile_fst_one, if_neg h2]
      · subst h3; rw [Quantile_fst_zero]
      · rcases hq qv (List.mem_cons_self _ _) with h | h
        · exact absurd h h3
        · exact absurd h h1
    unfold downsampleWindow Quantiles
    simp only [hx, ih (fun f hf => hq f (List.mem_cons_of_mem _ hf))]
    cases hq' : Quantile slice qv with
    | none => rfl
    | some p => rfl

/-- A fraction other than `0.0` and `1.0` anywhere in `q` sends the inner loop into its
default case: no value is produced for the window. -/
theorem downsampleWindow_none_of_interior (slice q : List ℚ)
    (hq : ∃ f ∈ q, f ≠ 1 ∧ f ≠ 0) :
    downsampleWindow slice q = none := by
  induction q with
  | nil =>
    obtain ⟨f, hf, -⟩ := hq
    simp at hf
  | cons qv qs ih =>
    unfold downsampleWindow
    by_cases h : qv ≠ 1 ∧ qv ≠ 0
    · simp only [if_neg h.1, if_neg h.2]
    · have hrest : downsampleWindow slice qs = none := by
        apply ih
        obtain ⟨f, hf, hf1⟩ := hq
        rcases List.mem_cons.mp hf with e | e
        · subst e; exact absurd hf1 h
        · exact ⟨f, e, hf1⟩
      simp only [hrest]
      split <;> rfl

theorem Quantiles_total (slice q : List ℚ) (hs : slice ≠ [])
    (hq : ∀ f ∈ q, 0 ≤ f ∧ f ≤ 1) :
    ∃ o, Quantiles slice q = some o ∧ o.length = q.length := by
  induction q with
  | nil => exact ⟨[], rfl, rfl⟩
  | cons qv qs ih =>
    obtain ⟨o, ho, hl⟩ := ih (fun f hf => hq f (List.mem_cons_of_mem _ hf))
    obtain ⟨k, hk, -, -, hk2⟩ :=
      Quantile_rank_exists slice qv hs (hq qv (List.mem_cons_self _ _)).1
    refine ⟨slice[k] :: o, ?_, by simp [hl]⟩
    unfold Quantiles
    rw [hk2]
    simp only [ho]

theorem Quantiles_length (slice : List ℚ) :
    ∀ (q o : List ℚ), Quantiles slice q = some o → o.length = q.length := by
  intro q
  induction q with
  | nil =>
    intro o h
    simp only [Quantiles, Option.some.injEq] at h
    subst h; rfl
  | cons qv qs ih =>
    intro o h
    unfold Quantiles at h
    cases hq : Quantile slice qv with
    | none => simp [hq] at h
    | some p =>
      cases hr : Quantiles slice qs with
      | none => simp [hq, hr] at h
      | some rest =>
        simp only [hq, hr, Option.some.injEq] at h
        subst h
        simp [ih rest hr]

theorem windows_nil (step : ℕ) : windows step [] = [] := by
  rw [windows]; simp

theorem windows_cons (step : ℕ) (values : List ℚ) (hstep : 0 < step) (hv : values ≠ []) :
    windows step values = values.take step :: windows step (values.drop step) := by
  rw [windows, dif_pos ⟨hstep, hv⟩]

theorem windows_length (step : ℕ) (hstep : 0 < step) (n : ℕ) :
    ∀ values : List ℚ, values.length ≤ n →
      (windows step values).length = (values.length + step - 1) / step := by
  induction n with
  | zero =>
    intro values h
    have : values = [] := List.length_eq_zero.mp (by omega)
    subst this
    rw [windows_nil]
    simp only [List.length_nil, Nat.zero_add]
    exact (Nat.div_eq_of_lt (by omega)).symm
  | succ n ih =>
    intro values h
    by_cases hv : values = []
    · subst hv
      rw [windows_nil]
      simp only [List.length_nil, Nat.zero_add]
      exact (Nat.div_eq_of_lt (by omega)).symm
    · have hpos : 0 < values.length := List.length_pos.mpr hv
      rw [windows_cons step values hstep hv, List.length_cons,
        ih (values.drop step) (by simp; omega), List.length_drop]
      by_cases hle : values.length ≤ step
      · have e1 : (values.length - step + step - 1) / step = 0 :=
          Nat.div_eq_of_lt (by omega)
        have e2 : (values.length + step - 1) / step = 1 := by
          have e3 : values.length + step - 1 = (values.length - 1) + step := by omega
          rw [e3, Nat.add_div_right _ hstep, Nat.div_eq_of_lt (by omega)]
        rw [e1, e2]
      · have e : values.length + step - 1 = (values.length - step + step - 1) + step := by
          omega
        rw [e, Nat.add_div_right _ hstep]

theorem downsampleLoop_spec (values : List ℚ) (step : ℕ) (q : List ℚ) (hstep : 0 < step)
    (hq01 : ∀ f ∈ q, f = 0 ∨ f = 1) (fuel : ℕ) :
    ∀ (i : ℕ) (rnd : RandSource), values.length - i ≤ fuel →
      ∃ (outs : List (List ℚ)) (rnd' : RandSource),
        downsampleLoop values step q fuel i rnd = some (outs.flatten, rnd')
        ∧ List.Forall₂ (fun w o => Quantiles (w.insertionSort (· ≤ ·)) q = some o)
            (windows step (values.drop i)) outs := by
  have hq : ∀ f ∈ q, 0 ≤ f ∧ f ≤ 1 := by
    intro f hf
    rcases hq01 f hf with h | h <;> subst h <;> norm_num
  induction fuel with
  | zero =>
    intro i rnd h
    have hi : ¬ i < values.length := by omega
    refine ⟨[], rnd, by simp [downsampleLoop, hi], ?_⟩
    rw [List.drop_of_length_le (by omega), windows_nil]
    exact List.Forall₂.nil
  | succ fuel ih =>
    intro i rnd h
    by_cases hi : i < values.length
    · have hd : values.drop i ≠ [] := by
        intro hnil
        have := congrArg List.length hnil
        simp at this
        omega
      have hslice : (values.drop i).take
          (if i + step > values.length then values.length - i else step)
          = (values.drop i).take step := by
        split_ifs with hc
        · rw [List.take_of_length_le (by simp), List.take_of_length_le (by simp; omega)]
        · rfl
      have hne : (values.drop i).take step ≠ [] := by
        intro hnil
        have := congrArg List.length hnil
        simp at this
        omega
      have hsne : ((values.drop i).take step).insertionSort (· ≤ ·) ≠ [] := by
        intro hnil
        have := congrArg List.length hnil
        rw [List.length_insertionSort] at this
        exact hne (List.length_eq_zero.mp this)
      obtain ⟨o, ho, -⟩ := Quantiles_total _ q hsne hq
      obtain ⟨outs, rnd', hrec, hall⟩ :=
        ih (i + step) (QSortFloat rnd ((values.drop i).take step)).2 (by omega)
      refine ⟨o :: outs, rnd', ?_, ?_⟩
      · unfold downsampleLoop
        rw [if_pos hi]
        simp only [hslice, downsampleWindow_extremes_eq_Quantiles _ _ hq01,
          QSortFloat_eq_insertionSort, ho, hrec, List.flatten_cons]
      · rw [windows_cons step _ hstep hd, List.drop_drop]
        exact List.Forall₂.cons ho hall
    · refine ⟨[], rnd, by simp [downsampleLoop, hi], ?_⟩
      rw [List.drop_of_length_le (by omega), windows_nil]
      exact List.Forall₂.nil

theorem flatten_length_of_windows (q : List ℚ) (ws outs : List (List ℚ))
    (h : List.Forall₂ (fun w o => Quantiles (w.insertionSort (· ≤ ·)) q = some o) ws outs) :
    outs.flatten.length = ws.length * q.length := by
  induction h with
  | nil => simp
  | cons hwo _ ih =>
    rw [List.flatten_cons, List.length_append, ih, Quantiles_length _ _ _ hwo,
      List.length_cons]
    ring

/-- On fractions that are all `0.0` or `1.0`, and for `step > 0`, `Downsample` returns
the concatenation, over the consecutive windows of `step` elements (the last possibly
shorter), of `Quantiles` of the sorted window; its length is
`ceil (len values / step) * len q`; and when `step ≥ len values > 0` there is exactly
one window and the output is `Quantiles (QSortFloat values) q`. -/
theorem Downsample_extremes_windows (rnd : RandSource) (values : List ℚ) (step : ℤ)
    (q : List ℚ) (hstep : 0 < step) (hq01 : ∀ f ∈ q, f = 0 ∨ f = 1) :
    ∃ (outs : List (List ℚ)) (rnd' : RandSource),
      Downsample rnd values step q = some (outs.flatten, rnd')
      ∧ List.Forall₂ (fun w o => Quantiles (w.insertionSort (· ≤ ·)) q = some o)
          (windows step.toNat values) outs
      ∧ outs.flatten.length
          = ((values.length + step.toNat - 1) / step.toNat) * q.length
      ∧ (values ≠ [] → (values.length : ℤ) ≤ step →
          windows step.toNat values = [values]
          ∧ ∀ rnd2 : RandSource,
              Quantiles (QSortFloat rnd2 values).1 q = some outs.flatten) := by
  have hs : 0 < step.toNat := by omega
  obtain ⟨outs, rnd', hrun, hall⟩ :=
    downsampleLoop_spec values step.toNat q hs hq01 values.length 0 rnd (by omega)
  rw [List.drop_zero] at hall
  refine ⟨outs, rnd', ?_, hall, ?_, ?_⟩
  · unfold Downsample
    rw [if_neg (by omega)]
    exact hrun
  · rw [flatten_length_of_windows q _ _ hall, windows_length _ hs values.length values
      (le_refl _)]
  · intro hv hle
    have hw : windows step.toNat values = [values] := by
      rw [windows_cons _ _ hs hv, List.take_of_length_le (by omega),
        List.drop_of_length_le (by omega), windows_nil]
    refine ⟨hw, ?_⟩
    intro rnd2
    rw [hw] at hall
    cases hall with
    | cons hwo hrest =>
      cases hrest
      rw [QSortFloat_eq_insertionSort, hwo]
      simp

/-- On a non-empty `values`, a fraction other than `0.0` and `1.0` anywhere in `q`
leaves `Downsample` without a result, whatever the step and the pivot draws. -/
theorem Downsample_none_of_interior (rnd : RandSource) (values : List ℚ) (step : ℤ)
    (q : List ℚ) (hv : values ≠ []) (hq : ∃ f ∈ q, f ≠ 1 ∧ f ≠ 0) :
    Downsample rnd values step q = none := by
  have hpos : 0 < values.length := List.length_pos.mpr hv
  unfold Downsample
  split_ifs
  · rfl
  · obtain ⟨n, hn⟩ : ∃ n, values.length = n + 1 := ⟨values.length - 1, by omega⟩
    rw [hn]
    unfold downsampleLoop
    rw [if_pos (by omega)]
    simp only [downsampleWindow_none_of_interior _ q hq]

theorem Quantile_pair_half (a b : ℚ) : Quantile [a, b] (1 / 2) = some (b, 1) := by
  have hR : Round ((([a, b] : List ℚ).length : ℚ) * (1 / 2)) = 1 :=
    Round_eq_of_bounds (by norm_num) (by norm_num) (by norm_num)
  have h := Quantile_eq_of_rank [a, b] (1 / 2) 1 (by simp) (by rw [hR]; simp)
  simpa using h

theorem Quantile_single_half (a : ℚ) : Quantile [a] (1 / 2) = some (a, 0) := by
  have hR : Round ((([a] : List ℚ).length : ℚ) * (1 / 2)) = 1 :=
    Round_eq_of_bounds (by norm_num) (by norm_num) (by norm_num)
  have h := Quantile_eq_of_rank [a] (1 / 2) 0 (by simp) (by rw [hR]; simp)
  simpa using h

/-- C10 (the code departs from the claim). On `Downsample([5,3,9,1,3], 2, [0.5])`, and
on the fractions `[0.5, 0.0, 1.0]` that `PlotDatasets` passes, the fraction `0.5`
reaches the default case `append(qvals, Quantile(slice, qv))`, which has no value in
Go, and `Downsample` produces nothing. The comment on the function, "returning
quantiles for every range", and the claim give one quantile per window: the windows
are `[5,3]`, `[9,1]`, `[3]` and their quantiles at `0.5` are `5`, `9` and `3`. -/
theorem Downsample_default_case_no_value :
    Downsample ⟨fun _ => 0, 0⟩ [5, 3, 9, 1, 3] 2 [1 / 2] = none
    ∧ Downsample ⟨fun _ => 0, 0⟩ [5, 3, 9, 1, 3] 2 [1 / 2, 0, 1] = none
    ∧ windows 2 [5, 3, 9, 1, 3] = [[5, 3], [9, 1], [3]]
    ∧ Quantiles (([5, 3] : List ℚ).insertionSort (· ≤ ·)) [1 / 2] = some [5]
    ∧ Quantiles (([9, 1] : List ℚ).insertionSort (· ≤ ·)) [1 / 2] = some [9]
    ∧ Quantiles (([3] : List ℚ).insertionSort (· ≤ ·)) [1 / 2] = some [3] := by
  have hhalf : (1 / 2 : ℚ) ≠ 1 ∧ (1 / 2 : ℚ) ≠ 0 := by constructor <;> norm_num
  have e1 : ([5, 3] : List ℚ).insertionSort (· ≤ ·) = [3, 5] := by
    simp only [List.insertionSort, List.orderedInsert]
    norm_num [List.orderedInsert]
  have e2 : ([9, 1] : List ℚ).insertionSort (· ≤ ·) = [1, 9] := by
    simp only [List.insertionSort, List.orderedInsert]
    norm_num [List.orderedInsert]
  have e3 : ([3] : List ℚ).insertionSort (· ≤ ·) = [3] := by
    simp [List.insertionSort, List.orderedInsert]
  refine ⟨?_, ?_, ?_, ?_, ?_, ?_⟩
  · exact Downsample_none_of_interior _ _ _ _ (by simp)
      ⟨1 / 2, List.mem_cons_self _ _, hhalf⟩
  · exact Downsample_none_of_interior _ _ _ _ (by simp)
      ⟨1 / 2, List.mem_cons_self _ _, hhalf⟩
  · rw [windows_cons 2 _ (by norm_num) (by simp)]
    simp only [List.take, List.drop]
    rw [windows_cons 2 _ (by norm_num) (by simp)]
    simp only [List.take, List.drop]
    rw [windows_cons 2 _ (by norm_num) (by simp)]
    simp only [List.take, List.drop]
    rw [windows_nil]
  · rw [e1]
    simp only [Quantiles, Quantile_pair_half]
  · rw [e2]
    simp only [Quantiles, Quantile_pair_half]
  · rw [e3]
    simp only [Quantiles, Quantile_single_half]

/-! ## Theorems: datasets -/

/-- The accumulators of the `NewDataset` loop after a non-empty run: the sum of the
values plus the start sum, and a least and a greatest element among the values seen
(and the start values, when finite). -/
theorem datasetFold_spec (l : List ℚ) :
    ∀ (s : ℚ) (mn mx : ℚ), mx ≥ mn →
      ∃ mn' mx' : ℚ,
        l.foldl datasetStep (s, some mn, some mx) = (s + l.sum, some mn', some mx')
        ∧ (mn' = mn ∨ mn' ∈ l) ∧ (mx' = mx ∨ mx' ∈ l)
        ∧ mn' ≤ mn ∧ mx ≤ mx' ∧ (∀ x ∈ l, mn' ≤ x ∧ x ≤ mx') := by
  induction l with
  | nil =>
    intro s mn mx _
    exact ⟨mn, mx, by simp, Or.inl rfl, Or.inl rfl, le_refl _, le_refl _, by simp⟩
  | cons v t ih =>
    intro s mn mx h
    have hstep : datasetStep (s, some mn, some mx) v
        = (s + v, some (if mn > v then v else mn), some (if mx < v then v else mx)) := by
      unfold datasetStep
      simp only []
      split_ifs <;> rfl
    have hmm : (if mx < v then v else mx) ≥ (if mn > v then v else mn) := by
      split_ifs <;> linarith
    obtain ⟨mn', mx', hf, hmn, hmx, h1, h2, hall⟩ := ih (s + v) _ _ hmm
    refine ⟨mn', mx', ?_, ?_, ?_, ?_, ?_, ?_⟩
    · rw [List.foldl_cons, hstep, hf, List.sum_cons, add_assoc]
    · rcases hmn with h' | h'
      · rw [h']
        split_ifs
        · exact Or.inr (List.mem_cons_self _ _)
        · exact Or.inl rfl
      · exact Or.inr (List.mem_cons_of_mem _ h')
    · rcases hmx with h' | h'
      · rw [h']
        split_ifs
        · exact Or.inr (List.mem_cons_self _ _)
        · exact Or.inl rfl
      · exact Or.inr (List.mem_cons_of_mem _ h')
    · refine le_trans h1 ?_
      split_ifs <;> linarith
    · refine le_trans ?_ h2
      split_ifs <;> linarith
    · intro x hx
      rcases List.mem_cons.mp hx with h' | h'
      · subst h'
        constructor
        · refine le_trans h1 ?_
          split_ifs <;> linarith
        · refine le_trans ?_ h2
          split_ifs <;> linarith
      · exact hall x h'

/-- What `NewDataset` returns on a non-empty sample sequence. -/
theorem NewDataset_spec (name : String) (s : List ℚ) (upper lower : ℚ) (hs : s ≠ []) :
    ∃ mn mx : ℚ,
      NewDataset name s upper lower
        = some { name := name, dataset := s, min := mn, max := mx,
                 mean := s.sum / (s.length : ℚ),
                 upperBound := if upper < mx then mx else upper,
                 lowerBound := if lower > mn then mn else lower }
      ∧ mn ∈ s ∧ mx ∈ s ∧ (∀ x ∈ s, mn ≤ x ∧ x ≤ mx) := by
  obtain ⟨v, t, rfl⟩ := List.exists_cons_of_ne_nil hs
  obtain ⟨mn, mx, hf, hmn, hmx, h1, h2, hall⟩ := datasetFold_spec t (0 + v) v v (le_refl _)
  have hfold : (v :: t).foldl datasetStep (0, none, none)
      = ((v :: t).sum, some mn, some mx) := by
    rw [List.foldl_cons]
    have : datasetStep (0, none, none) v = (0 + v, some v, some v) := rfl
    rw [this, hf, List.sum_cons, zero_add]
  refine ⟨mn, mx, ?_, ?_, ?_, ?_⟩
  · unfold NewDataset
    rw [hfold]
  · rcases hmn with h' | h'
    · rw [h']; exact List.mem_cons_self _ _
    · exact List.mem_cons_of_mem _ h'
  · rcases hmx with h' | h'
    · rw [h']; exact List.mem_cons_self _ _
    · exact List.mem_cons_of_mem _ h'
  · intro x hx
    rcases List.mem_cons.mp hx with h' | h'
    · subst h'; exact ⟨h1, h2⟩
    · exact hall x h'

/-- C11. For a non-empty sample sequence and any declared bounds, `NewDataset` returns
a dataset with `LowerBound() ≤ Min() ≤ Max() ≤ UpperBound()`. -/
theorem NewDataset_bounds_invariant (name : String) (s : List ℚ) (upper lower : ℚ)
    (hs : s ≠ []) :
    ∃ d : Dataset, NewDataset name s upper lower = some d
      ∧ d.LowerBound ≤ d.Min ∧ d.Min ≤ d.Max ∧ d.Max ≤ d.UpperBound := by
  obtain ⟨mn, mx, hd, hmn, -, hall⟩ := NewDataset_spec name s upper lower hs
  refine ⟨_, hd, ?_, ?_, ?_⟩
  · simp only [Dataset.LowerBound, Dataset.Min]
    split_ifs with h
    · exact le_refl _
    · exact not_lt.mp h
  · exact (hall mn hmn).2
  · simp only [Dataset.UpperBound, Dataset.Max]
    split_ifs with h
    · exact le_refl _
    · exact not_lt.mp h

/-- Instance of C11 with declared bounds given in the wrong order and away from the
data: `NewDataset("x", [5], upper = 1, lower = 10)`. -/
theorem NewDataset_bounds_invariant_witness :
    ([5] : List ℚ) ≠ []
    ∧ ∃ d : Dataset, NewDataset "x" [5] 1 10 = some d
      ∧ d.LowerBound ≤ d.Min ∧ d.Min ≤ d.Max ∧ d.Max ≤ d.UpperBound :=
  ⟨by simp, NewDataset_bounds_invariant "x" [5] 1 10 (by simp)⟩

/-- C12. For a non-empty sample sequence `s`, the dataset built by `NewDataset` has
`Min()` the least element of `s`, `Max()` the greatest, `Mean() = sum s / len s`, and
for every scale `c` the integer accessors are `Round` of the scaled statistic. -/
theorem NewDataset_statistics (name : String) (s : List ℚ) (upper lower : ℚ)
    (hs : s ≠ []) :
    ∃ d : Dataset, NewDataset name s upper lower = some d
      ∧ d.Min ∈ s ∧ (∀ x ∈ s, d.Min ≤ x)
      ∧ d.Max ∈ s ∧ (∀ x ∈ s, x ≤ d.Max)
      ∧ d.Mean = s.sum / (s.length : ℚ)
      ∧ ∀ c : ℚ, d.MinInt c = Round (d.Min * c) ∧ d.MaxInt c = Round (d.Max * c)
          ∧ d.MeanInt c = Round (d.Mean * c) := by
  obtain ⟨mn, mx, hd, hmn, hmx, hall⟩ := NewDataset_spec name s upper lower hs
  exact ⟨_, hd, hmn, fun x hx => (hall x hx).1, hmx, fun x hx => (hall x hx).2, rfl,
    fun _ => ⟨rfl, rfl, rfl⟩⟩

/-- Instance of C12 on the test vector `s1` with scale `100`: the integer minimum,
maximum and mean are `1`, `43` and `24`. -/
theorem NewDataset_statistics_witness :
    s1 ≠ []
    ∧ ∃ d : Dataset, NewDataset "meantest" s1 0 0 = some d
      ∧ d.MinInt 100 = 1 ∧ d.MaxInt 100 = 43 ∧ d.MeanInt 100 = 24 := by
  have hne : s1 ≠ [] := by simp [s1]
  obtain ⟨d, hd, hmn, hlo, hmx, hhi, hmean, hint⟩ :=
    NewDataset_statistics "meantest" s1 0 0 hne
  have hmin : d.Min = 1 / 100 := by
    apply le_antisymm (hlo _ (by simp [s1]))
    simp only [s1, List.mem_cons, List.mem_singleton, List.not_mem_nil, or_false] at hmn
    rcases hmn with h | h | h | h | h | h | h | h | h <;> rw [h] <;> norm_num
  have hmax : d.Max = 43 / 100 := by
    apply le_antisymm _ (hhi _ (by simp [s1]))
    simp only [s1, List.mem_cons, List.mem_singleton, List.not_mem_nil, or_false] at hmx
    rcases hmx with h | h | h | h | h | h | h | h | h <;> rw [h] <;> norm_num
  have hmean' : d.Mean = 5458 / 22500 := by
    rw [hmean]
    norm_num [s1]
  refine ⟨hne, d, hd, ?_, ?_, ?_⟩
  · rw [(hint 100).1, hmin]
    exact Round_eq_of_bounds (by norm_num) (by norm_num) (by norm_num)
  · rw [(hint 100).2.1, hmax]
    exact Round_eq_of_bounds (by norm_num) (by norm_num) (by norm_num)
  · rw [(hint 100).2.2, hmean']
    exact Round_eq_of_bounds (by norm_num) (by norm_num) (by norm_num)

/-- C20 (the code departs from the claim). `NewLatencyDataset` hands its `min, max` to
the parameters `upper, lower` of `NewDataset`, in that order. With the declared range
`[1, 10]` and the single generated value `5` (inside the range) the dataset reports
`LowerBound() = 5` and `UpperBound() = 5`: the declared range `[1, 10]` is narrowed,
where the claim has `LowerBound() ≤ 1` and `UpperBound() ≥ 10`. -/
theorem NewLatencyDataset_narrows_range :
    ∃ d : Dataset,
      NewLatencyDataset (fun _ _ _ _ _ _ => 5) "lowLatency0" 0 0 1 10 1 = some d
      ∧ d.dataset = [5]
      ∧ d.LowerBound = 5 ∧ d.UpperBound = 5
      ∧ ¬ (d.LowerBound ≤ 1) ∧ ¬ (d.UpperBound ≥ 10) := by
  obtain ⟨mn, mx, hd, hmn, hmx, -⟩ := NewDataset_spec "lowLatency0" [5] 1 10 (by simp)
  have h1 : mn = 5 := by simpa using hmn
  have h2 : mx = 5 := by simpa using hmx
  subst h1 h2
  have hl : NewLatencyDataset (fun _ _ _ _ _ _ => 5) "lowLatency0" 0 0 1 10 1
      = NewDataset "lowLatency0" [5] 1 10 := by
    unfold NewLatencyDataset
    rw [if_neg (by norm_num)]
    rfl
  rw [hl, hd]
  refine ⟨_, rfl, rfl, ?_, ?_, ?_, ?_⟩
  · simp only [Dataset.LowerBound]; norm_num
  · simp only [Dataset.UpperBound]; norm_num
  · simp only [Dataset.LowerBound]; norm_num
  · simp only [Dataset.UpperBound]; norm_num

/-! ## Theorems: the Exact histogram -/

theorem preciseAppend_eq (datasets : List Dataset) (start stop : ℤ) :
    ∀ merged m', preciseAppend merged datasets start stop = some m' →
      m' = merged ++ slicesOf datasets start stop := by
  induction datasets with
  | nil =>
    intro merged m' h
    simp only [preciseAppend, Option.some.injEq] at h
    simp [slicesOf, h]
  | cons d ds ih =>
    intro merged m' h
    unfold preciseAppend at h
    cases hs : sliceRange d.dataset start stop with
    | none => simp [hs] at h
    | some s =>
      simp only [hs] at h
      rw [ih _ _ h]
      simp [slicesOf, hs]

theorem preciseAppend_some (datasets : List Dataset) (start stop : ℤ)
    (hvalid : ∀ d ∈ datasets, 0 ≤ start ∧ start ≤ stop ∧ stop ≤ (d.dataset.length : ℤ)) :
    ∀ merged, preciseAppend merged datasets start stop
      = some (merged ++ slicesOf datasets start stop) := by
  induction datasets with
  | nil => intro merged; simp [preciseAppend, slicesOf]
  | cons d ds ih =>
    intro merged
    have hd : sliceRange d.dataset start stop
        = some ((d.dataset.drop start.toNat).take (stop.toNat - start.toNat)) := by
      unfold sliceRange
      rw [if_pos (hvalid d (List.mem_cons_self _ _))]
    unfold preciseAppend
    simp only [hd]
    rw [ih (fun d' hd' => hvalid d' (List.mem_cons_of_mem _ hd'))]
    simp [slicesOf, hd]

theorem ensureSorted_spec (h : preciseHistogram) (rnd : RandSource)
    (hinv : h.sorted = true → h.merged.Sorted (· ≤ ·)) :
    (h.ensureSorted rnd).1.merged = h.merged.insertionSort (· ≤ ·)
    ∧ (h.ensureSorted rnd).1.sorted = true := by
  unfold preciseHistogram.ensureSorted
  cases hs : h.sorted with
  | false => simp [QSortFloat_eq_insertionSort]
  | true => simp [hs, (hinv hs).insertionSort_eq]

/-- Invariant of the Exact histogram along any sequence of calls: the buffer is a
permutation of the samples recorded so far, and a raised `sorted` flag comes with an
ascending buffer. -/
theorem runOps_invariant (ops : List PreciseOp) :
    ∀ (st : preciseHistogram × RandSource) (acc : List ℚ)
      (st' : preciseHistogram × RandSource),
      st.1.merged.Perm acc → (st.1.sorted = true → st.1.merged.Sorted (· ≤ ·)) →
      runOps ops st = some st' →
      st'.1.merged.Perm (recordedSamples acc ops)
      ∧ (st'.1.sorted = true → st'.1.merged.Sorted (· ≤ ·)) := by
  induction ops with
  | nil =>
    intro st acc st' hp hs hrun
    simp only [runOps, Option.some.injEq] at hrun
    subst hrun
    exact ⟨hp, hs⟩
  | cons op ops ih =>
    intro st acc st' hp hs hrun
    unfold runOps at hrun
    cases hop : op.apply st with
    | none => simp [hop] at hrun
    | some st1 =>
      simp only [hop] at hrun
      cases op with
      | reset =>
        simp only [PreciseOp.apply, Option.some.injEq] at hop
        subst hop
        exact ih _ [] st' (by simp [preciseHistogram.Reset])
          (by intro _; simp [preciseHistogram.Reset]) hrun
      | recordValues datasets start stop =>
        simp only [PreciseOp.apply, preciseHistogram.RecordValues, Option.map_map,
          Option.map_eq_some'] at hop
        obtain ⟨m, hm, rfl⟩ := hop
        have := preciseAppend_eq datasets start stop _ _ hm
        subst this
        exact ih _ (acc ++ slicesOf datasets start stop) st'
          (by simpa using hp.append_right _) (by intro hc; simp at hc) hrun
      | quantiles qin =>
        simp only [PreciseOp.apply, preciseHistogram.Quantiles, Option.map_map,
          Option.map_eq_some'] at hop
        obtain ⟨out, -, rfl⟩ := hop
        obtain ⟨e1, e2⟩ := ensureSorted_spec st.1 st.2 hs
        refine ih _ acc st' ?_ ?_ hrun
        · simp only [Function.comp, e1]
          exact (List.perm_insertionSort _ _).trans hp
        · intro _
          simp only [Function.comp, e1]
          exact List.sorted_insertionSort _ _
      | valueAtQuantile qin =>
        simp only [PreciseOp.apply, preciseHistogram.ValueAtQuantile, Option.map_map,
          Option.map_eq_some'] at hop
        obtain ⟨out, -, rfl⟩ := hop
        obtain ⟨e1, e2⟩ := ensureSorted_spec st.1 st.2 hs
        refine ih _ acc st' ?_ ?_ hrun
        · simp only [Function.comp, e1]
          exact (List.perm_insertionSort _ _).trans hp
        · intro _
          simp only [Function.comp, e1]
          exact List.sorted_insertionSort _ _

/-- The answer of `Quantiles` on a histogram whose buffer is a non-empty permutation
of `samples`: the rank selection on the ascending sort of `samples`. -/
theorem preciseQuantiles_of_perm (h : preciseHistogram) (rnd : RandSource)
    (samples q : List ℚ) (hp : h.merged.Perm samples)
    (hinv : h.sorted = true → h.merged.Sorted (· ≤ ·)) (hne : samples ≠ [])
    (hq : ∀ f ∈ q, 0 ≤ f ∧ f ≤ 1) :
    ∃ (out : List ℚ) (h' : preciseHistogram) (rnd' : RandSource),
      h.Quantiles rnd q = some (out, h', rnd')
      ∧ Hdrbench.Quantiles (samples.insertionSort (· ≤ ·)) q = some out
      ∧ out.length = q.length := by
  obtain ⟨e1, -⟩ := ensureSorted_spec h rnd hinv
  have hsame : h.merged.insertionSort (· ≤ ·) = samples.insertionSort (· ≤ ·) :=
    List.eq_of_perm_of_sorted
      (((List.perm_insertionSort _ _).trans hp).trans (List.perm_insertionSort _ _).symm)
      (List.sorted_insertionSort _ _) (List.sorted_insertionSort _ _)
  have hne' : samples.insertionSort (· ≤ ·) ≠ [] := by
    intro hnil
    have := congrArg List.length hnil
    rw [List.length_insertionSort] at this
    exact hne (List.length_eq_zero.mp this)
  obtain ⟨out, hout, hlen⟩ := Quantiles_total _ q hne' hq
  refine ⟨out, (h.ensureSorted rnd).1, (h.ensureSorted rnd).2, ?_, hout, hlen⟩
  unfold preciseHistogram.Quantiles
  rw [e1, hsame, hout]
  rfl

theorem slicesOf_length_pos (d : Dataset) (ds : List Dataset) (start stop : ℤ)
    (h0 : 0 ≤ start) (hlt : start < stop) (h1 : stop ≤ (d.dataset.length : ℤ)) :
    slicesOf (d :: ds) start stop ≠ [] := by
  have hd : sliceRange d.dataset start stop
      = some ((d.dataset.drop start.toNat).take (stop.toNat - start.toNat)) := by
    unfold sliceRange
    rw [if_pos ⟨h0, le_of_lt hlt, h1⟩]
  intro hnil
  have hlen := congrArg List.length hnil
  simp only [slicesOf, List.map_cons, hd, Option.getD_some, List.flatten_cons,
    List.length_append, List.length_take, List.length_drop, List.length_nil] at hlen
  omega

/-- C13. The Exact variant is ground truth. From a fresh or reset histogram (empty
buffer, any flag), after any sequence of calls that all returned and recorded at
least one sample (since the last `Reset`, if any), `Quantiles(q)` for fractions in
`[0,1]` returns `Quantiles(S, q)` with `S` the ascending sort of all samples recorded
so far; the buffer holds exactly those samples. -/
theorem preciseHistogram_ground_truth (ops : List PreciseOp) (b : Bool)
    (rnd rnd' : RandSource) (st : preciseHistogram)
    (hrun : runOps ops ({ merged := [], sorted := b }, rnd) = some (st, rnd'))
    (hne : recordedSamples [] ops ≠ []) (q : List ℚ) (hq : ∀ f ∈ q, 0 ≤ f ∧ f ≤ 1) :
    st.merged.Perm (recordedSamples [] ops)
    ∧ ∃ (out : List ℚ) (st' : preciseHistogram) (rnd'' : RandSource),
        st.Quantiles rnd' q = some (out, st', rnd'')
        ∧ Hdrbench.Quantiles ((recordedSamples [] ops).insertionSort (· ≤ ·)) q = some out
        ∧ out.length = q.length := by
  obtain ⟨hp, hs⟩ := runOps_invariant ops _ [] _ (List.Perm.refl _)
    (by intro _; exact List.sorted_nil) hrun
  exact ⟨hp, preciseQuantiles_of_perm st rnd' _ q hp hs hne hq⟩

/-- Instance of C13 in the shape of the test: two datasets recorded in the batches
`[0,2)` then `[2,4)`, queried at the fractions `0.1, 0.5, 0.99`. -/
theorem preciseHistogram_ground_truth_witness :
    ∃ (st : preciseHistogram) (rnd' : RandSource),
      runOps [.recordValues [dsA, dsB] 0 2, .recordValues [dsA, dsB] 2 4]
          ({ merged := [], sorted := false }, ⟨fun _ => 0, 0⟩) = some (st, rnd')
      ∧ recordedSamples [] [.recordValues [dsA, dsB] 0 2, .recordValues [dsA, dsB] 2 4]
          = [3, 1, 4, 0, 2, 5, 9, 7]
      ∧ (∀ f ∈ ([1 / 10, 1 / 2, 99 / 100] : List ℚ), 0 ≤ f ∧ f ≤ 1)
      ∧ ∃ (out : List ℚ) (st' : preciseHistogram) (rnd'' : RandSource),
          st.Quantiles rnd' [1 / 10, 1 / 2, 99 / 100] = some (out, st', rnd'')
          ∧ Hdrbench.Quantiles (([3, 1, 4, 0, 2, 5, 9, 7] : List ℚ).insertionSort (· ≤ ·))
              [1 / 10, 1 / 2, 99 / 100] = some out := by
  have hq : ∀ f ∈ ([1 / 10, 1 / 2, 99 / 100] : List ℚ), 0 ≤ f ∧ f ≤ 1 := by
    intro f hf
    simp only [List.mem_cons, List.mem_singleton, List.not_mem_nil, or_false] at hf
    rcases hf with h | h | h <;> subst h <;> norm_num
  have hrec : recordedSamples []
      [.recordValues [dsA, dsB] 0 2, .recordValues [dsA, dsB] 2 4]
      = [3, 1, 4, 0, 2, 5, 9, 7] := by
    simp [recordedSamples, slicesOf, sliceRange, dsA, dsB]
  have hrun : runOps [.recordValues [dsA, dsB] 0 2, .recordValues [dsA, dsB] 2 4]
      ({ merged := [], sorted := false }, ⟨fun _ => 0, 0⟩)
      = some ({ merged := [3, 1, 4, 0, 2, 5, 9, 7], sorted := false }, ⟨fun _ => 0, 0⟩) := by
    simp [runOps, PreciseOp.apply, preciseHistogram.RecordValues, preciseAppend, sliceRange,
      dsA, dsB]
  obtain ⟨-, out, st', rnd'', h1, h2, -⟩ :=
    preciseHistogram_ground_truth _ false _ _ _ hrun (by rw [hrec]; simp) _ hq
  rw [hrec] at h2
  exact ⟨_, _, hrun, hrec, hq, out, st', rnd'', h1, h2⟩

/-- The answer of `Quantiles` does not depend on the pivot draws: on a histogram
whose flag is down it is the rank selection on the ascending sort of the buffer. -/
theorem preciseQuantiles_unsorted (h : preciseHistogram) (rnd : RandSource) (q : List ℚ)
    (hs : h.sorted = false) :
    (h.Quantiles rnd q).map Prod.fst
      = Hdrbench.Quantiles (h.merged.insertionSort (· ≤ ·)) q := by
  obtain ⟨e1, -⟩ := ensureSorted_spec h rnd (by intro hc; rw [hs] at hc; cases hc)
  unfold preciseHistogram.Quantiles
  rw [e1, Option.map_map]
  cases Hdrbench.Quantiles (h.merged.insertionSort (· ≤ ·)) q <;> rfl

/-- C14. From any state of the Exact histogram, `Reset()` followed by `RecordValues`
over `D` leaves exactly the state of a fresh histogram fed `D` once, and `Quantiles`
then returns the same result for every fraction list, whatever the pivot draws; on a
valid non-empty range and fractions in `[0,1]` that result exists. -/
theorem preciseHistogram_reset_then_record (st : preciseHistogram)
    (rnd1 rnd2 : RandSource) (datasets : List Dataset) (start stop : ℤ) (q : List ℚ) :
    st.Reset.RecordValues datasets start stop
      = NewPreceiseHist.RecordValues datasets start stop
    ∧ (st.Reset.RecordValues datasets start stop).bind
          (fun h => (h.Quantiles rnd1 q).map Prod.fst)
        = (NewPreceiseHist.RecordValues datasets start stop).bind
            (fun h => (h.Quantiles rnd2 q).map Prod.fst)
    ∧ ((∀ d ∈ datasets, 0 ≤ start ∧ start ≤ stop ∧ stop ≤ (d.dataset.length : ℤ)) →
        slicesOf datasets start stop ≠ [] → (∀ f ∈ q, 0 ≤ f ∧ f ≤ 1) →
        ∃ out : List ℚ,
          (st.Reset.RecordValues datasets start stop).bind
            (fun h => (h.Quantiles rnd1 q).map Prod.fst) = some out
          ∧ Hdrbench.Quantiles ((slicesOf datasets start stop).insertionSort (· ≤ ·)) q
              = some out) := by
  have hsame : st.Reset.RecordValues datasets start stop
      = NewPreceiseHist.RecordValues datasets start stop := rfl
  refine ⟨hsame, ?_, ?_⟩
  · rw [hsame]
    cases hr : NewPreceiseHist.RecordValues datasets start stop with
    | none => rfl
    | some h =>
      have hflag : h.sorted = false := by
        simp only [preciseHistogram.RecordValues, Option.map_eq_some'] at hr
        obtain ⟨m, -, rfl⟩ := hr
        rfl
      simp only [Option.some_bind]
      rw [preciseQuantiles_unsorted h rnd1 q hflag, preciseQuantiles_unsorted h rnd2 q hflag]
  · intro hvalid hne hq
    have hrec : st.Reset.RecordValues datasets start stop
        = some { merged := slicesOf datasets start stop, sorted := false } := by
      simp only [preciseHistogram.RecordValues, preciseHistogram.Reset,
        preciseAppend_some datasets start stop hvalid, List.nil_append, Option.map_some']
    have hne' : (slicesOf datasets start stop).insertionSort (· ≤ ·) ≠ [] := by
      intro hnil
      have := congrArg List.length hnil
      rw [List.length_insertionSort] at this
      exact hne (List.length_eq_zero.mp this)
    obtain ⟨out, hout, -⟩ := Quantiles_total _ q hne' hq
    refine ⟨out, ?_, hout⟩
    rw [hrec, Option.some_bind, preciseQuantiles_unsorted _ rnd1 q rfl]
    exact hout

/-- Instance of C14: a histogram that holds sorted samples and a raised flag is reset
and fed the range `[0,2)` of two datasets. -/
theorem preciseHistogram_reset_then_record_witness :
    (∀ d ∈ [dsA, dsB], (0 : ℤ) ≤ 0 ∧ (0 : ℤ) ≤ 2 ∧ (2 : ℤ) ≤ (d.dataset.length : ℤ))
    ∧ slicesOf [dsA, dsB] 0 2 = [3, 1, 4, 0]
    ∧ (∀ f ∈ ([1 / 2] : List ℚ), 0 ≤ f ∧ f ≤ 1)
    ∧ ∃ out : List ℚ,
        ((preciseHistogram.mk [1, 2, 8] true).Reset.RecordValues [dsA, dsB] 0 2).bind
            (fun h => (h.Quantiles ⟨fun _ => 0, 0⟩ [1 / 2]).map Prod.fst) = some out
        ∧ (NewPreceiseHist.RecordValues [dsA, dsB] 0 2).bind
            (fun h => (h.Quantiles ⟨fun k => k, 0⟩ [1 / 2]).map Prod.fst) = some out := by
  have hvalid : ∀ d ∈ [dsA, dsB],
      (0 : ℤ) ≤ 0 ∧ (0 : ℤ) ≤ 2 ∧ (2 : ℤ) ≤ (d.dataset.length : ℤ) := by
    intro d hd
    simp only [List.mem_cons, List.mem_singleton, List.not_mem_nil, or_false] at hd
    rcases hd with h | h <;> subst h <;> simp [dsA, dsB]
  have hsl : slicesOf [dsA, dsB] 0 2 = [3, 1, 4, 0] := by
    simp [slicesOf, sliceRange, dsA, dsB]
  have hq : ∀ f ∈ ([1 / 2] : List ℚ), 0 ≤ f ∧ f ≤ 1 := by
    intro f hf
    simp only [List.mem_singleton] at hf
    subst hf; norm_num
  have t := preciseHistogram_reset_then_record (preciseHistogram.mk [1, 2, 8] true)
    ⟨fun _ => 0, 0⟩ ⟨fun k => k, 0⟩ [dsA, dsB] 0 2 [1 / 2]
  obtain ⟨out, h1, -⟩ := t.2.2 hvalid (by rw [hsl]; simp) hq
  exact ⟨hvalid, hsl, hq, out, h1, by rw [← t.2.1]; exact h1⟩

theorem runOps_recordValues_one (datasets : List Dataset) (start stop : ℤ)
    (hvalid : ∀ d ∈ datasets, 0 ≤ start ∧ start ≤ stop ∧ stop ≤ (d.dataset.length : ℤ))
    (ops : List PreciseOp) (h : preciseHistogram) (rnd : RandSource) :
    runOps (.recordValues datasets start stop :: ops) (h, rnd)
      = runOps ops ({ merged := h.merged ++ slicesOf datasets start stop, sorted := false },
          rnd) := by
  rw [runOps]
  simp only [PreciseOp.apply, preciseHistogram.RecordValues,
    preciseAppend_some datasets start stop hvalid, Option.map_some']

/-- After calls that all returned and recorded a permutation of the non-empty `S`, a
fresh histogram answers `Quantiles(q)` with the rank selection on the sorted `S`. -/
theorem quantilesAfter_eq (ops : List PreciseOp) (rnd : RandSource) (q S : List ℚ)
    (st : preciseHistogram × RandSource)
    (hrun : runOps ops (NewPreceiseHist, rnd) = some st)
    (hperm : (recordedSamples [] ops).Perm S) (hne : S ≠ [])
    (hq : ∀ f ∈ q, 0 ≤ f ∧ f ≤ 1) :
    ∃ out, quantilesAfter ops rnd q = some out
      ∧ Hdrbench.Quantiles (S.insertionSort (· ≤ ·)) q = some out := by
  obtain ⟨hp, hs⟩ := runOps_invariant ops _ [] _ (List.Perm.refl _)
    (by intro _; exact List.sorted_nil) hrun
  obtain ⟨out, st', rnd'', h1, h2, -⟩ :=
    preciseQuantiles_of_perm st.1 st.2 S q (hp.trans hperm) hs hne hq
  refine ⟨out, ?_, h2⟩
  unfold quantilesAfter
  simp only [hrun, h1, Option.map_some']

/-- C17. Merge order independence for the Exact variant: on a valid range with
`start < stop`, a fresh histogram that records `[d1, d2]`, one that records
`[d2, d1]`, and ones that record `d1` then `d2` or `d2` then `d1` in two calls, all
return the same `Quantiles` result for fractions in `[0,1]`, whatever the pivot
draws. -/
theorem preciseHistogram_merge_order (d1 d2 : Dataset) (start stop : ℤ)
    (h0 : 0 ≤ start) (hlt : start < stop)
    (h1 : stop ≤ (d1.dataset.length : ℤ)) (h2 : stop ≤ (d2.dataset.length : ℤ))
    (q : List ℚ) (hq : ∀ f ∈ q, 0 ≤ f ∧ f ≤ 1) (rndA rndB rndC rndD : RandSource) :
    ∃ out : List ℚ,
      quantilesAfter [.recordValues [d1, d2] start stop] rndA q = some out
      ∧ quantilesAfter [.recordValues [d2, d1] start stop] rndB q = some out
      ∧ quantilesAfter [.recordValues [d1] start stop, .recordValues [d2] start stop]
          rndC q = some out
      ∧ quantilesAfter [.recordValues [d2] start stop, .recordValues [d1] start stop]
          rndD q = some out
      ∧ out.length = q.length := by
  have v1 : ∀ d ∈ [d1], 0 ≤ start ∧ start ≤ stop ∧ stop ≤ (d.dataset.length : ℤ) := by
    intro d hd
    rw [List.mem_singleton] at hd
    subst hd; exact ⟨h0, le_of_lt hlt, h1⟩
  have v2 : ∀ d ∈ [d2], 0 ≤ start ∧ start ≤ stop ∧ stop ≤ (d.dataset.length : ℤ) := by
    intro d hd
    rw [List.mem_singleton] at hd
    subst hd; exact ⟨h0, le_of_lt hlt, h2⟩
  have v12 : ∀ d ∈ [d1, d2], 0 ≤ start ∧ start ≤ stop ∧ stop ≤ (d.dataset.length : ℤ) := by
    intro d hd
    rcases List.mem_cons.mp hd with h | h
    · exact v1 d (by rw [h]; exact List.mem_singleton_self _)
    · exact v2 d h
  have v21 : ∀ d ∈ [d2, d1], 0 ≤ start ∧ start ≤ stop ∧ stop ≤ (d.dataset.length : ℤ) := by
    intro d hd
    rcases List.mem_cons.mp hd with h | h
    · exact v2 d (by rw [h]; exact List.mem_singleton_self _)
    · exact v1 d h
  have hS : slicesOf [d1, d2] start stop ≠ [] := slicesOf_length_pos d1 [d2] start stop h0 hlt h1
  have e12 : slicesOf [d1, d2] start stop
      = slicesOf [d1] start stop ++ slicesOf [d2] start stop := by
    simp [slicesOf]
  have e21 : slicesOf [d2, d1] start stop
      = slicesOf [d2] start stop ++ slicesOf [d1] start stop := by
    simp [slicesOf]
  obtain ⟨out, ha, hout⟩ := quantilesAfter_eq [.recordValues [d1, d2] start stop] rndA q
    (slicesOf [d1, d2] start stop) _
    (by rw [runOps_recordValues_one _ _ _ v12]; rfl)
    (by simp [recordedSamples]) hS hq
  obtain ⟨outB, hb, houtB⟩ := quantilesAfter_eq [.recordValues [d2, d1] start stop] rndB q
    (slicesOf [d1, d2] start stop) _
    (by rw [runOps_recordValues_one _ _ _ v21]; rfl)
    (by
      simp only [recordedSamples, List.nil_append]
      rw [e12, e21]
      exact List.perm_append_comm) hS hq
  obtain ⟨outC, hc, houtC⟩ := quantilesAfter_eq
    [.recordValues [d1] start stop, .recordValues [d2] start stop] rndC q
    (slicesOf [d1, d2] start stop) _
    (by rw [runOps_recordValues_one _ _ _ v1, runOps_recordValues_one _ _ _ v2]; rfl)
    (by
      simp only [recordedSamples, List.nil_append]
      rw [e12]) hS hq
  obtain ⟨outD, hd, houtD⟩ := quantilesAfter_eq
    [.recordValues [d2] start stop, .recordValues [d1] start stop] rndD q
    (slicesOf [d1, d2] start stop) _
    (by rw [runOps_recordValues_one _ _ _ v2, runOps_recordValues_one _ _ _ v1]; rfl)
    (by
      simp only [recordedSamples, List.nil_append]
      rw [e12]
      exact List.perm_append_comm) hS hq
  rw [hout] at houtB houtC houtD
  cases houtB
  cases houtC
  cases houtD
  exact ⟨out, ha, hb, hc, hd, Quantiles_length _ _ _ hout⟩

/-- Instance of C17 on the two concrete datasets and the range `[1,3)`. -/
theorem preciseHistogram_merge_order_witness :
    (0 : ℤ) ≤ 1 ∧ (1 : ℤ) < 3 ∧ (3 : ℤ) ≤ (dsA.dataset.length : ℤ)
    ∧ (3 : ℤ) ≤ (dsB.dataset.length : ℤ)
    ∧ (∀ f ∈ ([0, 1 / 2, 1] : List ℚ), 0 ≤ f ∧ f ≤ 1)
    ∧ ∃ out : List ℚ,
        quantilesAfter [.recordValues [dsA, dsB] 1 3] ⟨fun _ => 0, 0⟩ [0, 1 / 2, 1] = some out
        ∧ quantilesAfter [.recordValues [dsB, dsA] 1 3] ⟨fun k => k, 0⟩ [0, 1 / 2, 1]
            = some out := by
  have hq : ∀ f ∈ ([0, 1 / 2, 1] : List ℚ), 0 ≤ f ∧ f ≤ 1 := by
    intro f hf
    simp only [List.mem_cons, List.mem_singleton, List.not_mem_nil, or_false] at hf
    rcases hf with h | h | h <;> subst h <;> norm_num
  have hA : (3 : ℤ) ≤ (dsA.dataset.length : ℤ) := by simp [dsA]
  have hB : (3 : ℤ) ≤ (dsB.dataset.length : ℤ) := by simp [dsB]
  obtain ⟨out, ha, hb, -, -, -⟩ :=
    preciseHistogram_merge_order dsA dsB 1 3 (by norm_num) (by norm_num) hA hB
      [0, 1 / 2, 1] hq ⟨fun _ => 0, 0⟩ ⟨fun k => k, 0⟩ ⟨fun _ => 0, 0⟩ ⟨fun _ => 0, 0⟩
  exact ⟨by norm_num, by norm_num, hA, hB, hq, out, ha, hb⟩

/-- C19. State invariant of the Exact variant. In every state reached from
`NewPreceiseHist` by `Reset`, `RecordValues`, `Quantiles` and `ValueAtQuantile` calls
that returned, a raised `sorted` flag comes with an ascending buffer; a query made
with the flag raised skips the sort (buffer and random source are left as they are)
and so reads a sorted buffer; a call that lowers a raised flag is a `RecordValues`
call, and a query changes the buffer only when the flag is down. -/
theorem preciseHistogram_sorted_flag (ops : List PreciseOp) (rnd rnd' : RandSource)
    (st : preciseHistogram)
    (hrun : runOps ops (NewPreceiseHist, rnd) = some (st, rnd')) :
    (st.sorted = true → st.merged.Sorted (· ≤ ·))
    ∧ (st.sorted = true →
        st.ensureSorted rnd' = (st, rnd') ∧ (st.ensureSorted rnd').1.merged.Sorted (· ≤ ·))
    ∧ (∀ (op : PreciseOp) (s s' : preciseHistogram × RandSource),
        op.apply s = some s' → s.1.sorted = true → s'.1.sorted = false →
        ∃ datasets start stop, op = .recordValues datasets start stop)
    ∧ (∀ (s : preciseHistogram) (r : RandSource),
        (s.ensureSorted r).1.merged ≠ s.merged → s.sorted = false) := by
  obtain ⟨-, hs⟩ := runOps_invariant ops _ [] _ (List.Perm.refl _)
    (by intro _; exact List.sorted_nil) hrun
  refine ⟨hs, ?_, ?_, ?_⟩
  · intro hflag
    have e : st.ensureSorted rnd' = (st, rnd') := by
      unfold preciseHistogram.ensureSorted
      simp [hflag]
    rw [e]
    exact ⟨rfl, hs hflag⟩
  · intro op s s' hop h1 h2
    cases op with
    | reset =>
      simp only [PreciseOp.apply, Option.some.injEq] at hop
      subst hop
      simp only [preciseHistogram.Reset] at h2
      rw [h1] at h2
      cases h2
    | recordValues datasets start stop => exact ⟨datasets, start, stop, rfl⟩
    | quantiles qin =>
      simp only [PreciseOp.apply, preciseHistogram.Quantiles, Option.map_map,
        Option.map_eq_some'] at hop
      obtain ⟨out, -, rfl⟩ := hop
      simp only [Function.comp, preciseHistogram.ensureSorted, h1] at h2
      simp at h2
      rw [h1] at h2
      cases h2
    | valueAtQuantile qin =>
      simp only [PreciseOp.apply, preciseHistogram.ValueAtQuantile, Option.map_map,
        Option.map_eq_some'] at hop
      obtain ⟨out, -, rfl⟩ := hop
      simp only [Function.comp, preciseHistogram.ensureSorted, h1] at h2
      simp at h2
      rw [h1] at h2
      cases h2
  · intro s r hne
    cases hflag : s.sorted with
    | false => rfl
    | true =>
      exfalso
      apply hne
      unfold preciseHistogram.ensureSorted
      simp [hflag]

/-- Instance of C19: after a record and a query the flag is raised and the buffer is
the sorted copy of the two recorded samples. -/
theorem preciseHistogram_sorted_flag_witness :
    ∃ (st : preciseHistogram) (rnd' : RandSource),
      runOps [.recordValues [dsA] 0 2, .quantiles []]
          (NewPreceiseHist, ⟨fun _ => 0, 0⟩) = some (st, rnd')
      ∧ st.merged = (QSortFloat ⟨fun _ => 0, 0⟩ [3, 1]).1
      ∧ st.sorted = true ∧ st.merged.Sorted (· ≤ ·) := by
  have hrun : runOps [.recordValues [dsA] 0 2, .quantiles []]
      (NewPreceiseHist, ⟨fun _ => 0, 0⟩)
      = some ({ merged := (QSortFloat ⟨fun _ => 0, 0⟩ [3, 1]).1, sorted := true },
          (QSortFloat ⟨fun _ => 0, 0⟩ [3, 1]).2) := by
    simp [runOps, PreciseOp.apply, preciseHistogram.RecordValues, preciseAppend, sliceRange,
      dsA, NewPreceiseHist, preciseHistogram.Quantiles, preciseHistogram.ensureSorted,
      Hdrbench.Quantiles]
  exact ⟨_, _, hrun, rfl, rfl, (preciseHistogram_sorted_flag _ _ _ _ hrun).1 rfl⟩

/-! ## Theorems: the Fixed-Precision histogram -/

/-- The range `Reset` rebuilds does not depend on the constructor's arguments: lowest
`0`, highest `10 xor 6 = 12`; the significant figures and the scale are kept. -/
theorem hdrHistogram_Reset_config (min max sigDigits : ℤ) (scaleToInt : ℚ) :
    (NewHdrHist min max sigDigits scaleToInt).Reset
      = { merged := hdrhistogram.New 0 12 sigDigits, scaleToInt := scaleToInt } := by
  simp only [NewHdrHist, hdrHistogram.Reset, hdrhistogram.New]
  have h : ((10 ^^^ 6 : ℕ) : ℤ) = 12 := by decide
  rw [h]

/-- C15 (the code departs from the claim). After `NewHdrHist(0, 1000, 2, 10.0)`, the
construction of `main.go`, `Reset()` leaves the highest trackable value `12`
(`10^6` is `10 xor 6` in Go) where construction had `1000`; and after
`NewHdrHist(5, 1000, 2, 10.0)` it leaves the lowest trackable value `0` where
construction had `5`. Significant figures and scale are unchanged. -/
theorem hdrHistogram_Reset_changes_range :
    (NewHdrHist 0 1000 2 10).merged.highestTrackableValue = 1000
    ∧ (NewHdrHist 0 1000 2 10).Reset.merged.highestTrackableValue = 12
    ∧ (NewHdrHist 5 1000 2 10).merged.lowestTrackableValue = 5
    ∧ (NewHdrHist 5 1000 2 10).Reset.merged.lowestTrackableValue = 0
    ∧ (NewHdrHist 0 1000 2 10).Reset.merged.significantFigures = 2
    ∧ (NewHdrHist 0 1000 2 10).Reset.scaleToInt = 10
    ∧ (NewHdrHist 0 1000 2 10).Reset ≠ NewHdrHist 0 1000 2 10 := by
  refine ⟨rfl, ?_, rfl, ?_, ?_, ?_, ?_⟩
  · rw [hdrHistogram_Reset_config]; rfl
  · rw [hdrHistogram_Reset_config]; rfl
  · rw [hdrHistogram_Reset_config]; rfl
  · rw [hdrHistogram_Reset_config]
  · rw [hdrHistogram_Reset_config]
    intro h
    have h' := congrArg (fun x => x.merged.highestTrackableValue) h
    simp [NewHdrHist, hdrhistogram.New] at h'

/-! ## Theorems: the Log-Linear histogram -/

/-- The merge loop on results that start with successful workers `hs` followed by a
failed one: the error of that worker is returned and exactly `hs` has been merged. -/
theorem circonusMergeLoop_first_error {H E : Type} (lib : circonusllhist H E)
    (hs : List H) (err : E) (rest : List (Except E H)) :
    ∀ merged : H,
      circonusMergeLoop lib merged (hs.map Except.ok ++ Except.error err :: rest)
        = (hs.foldl lib.Merge merged, some err) := by
  induction hs with
  | nil => intro merged; rfl
  | cons h t ih =>
    intro merged
    simp only [List.map_cons, List.cons_append, circonusMergeLoop, List.foldl_cons]
    exact ih _

/-- The merge loop when every worker succeeded: all results are merged, in order, and
no error is returned. -/
theorem circonusMergeLoop_all_ok {H E : Type} (lib : circonusllhist H E) (hs : List H) :
    ∀ merged : H,
      circonusMergeLoop lib merged (hs.map (Except.ok : H → Except E H))
        = (hs.foldl lib.Merge merged, none) := by
  induction hs with
  | nil => intro merged; rfl
  | cons h t ih =>
    intro merged
    simp only [List.map_cons, circonusMergeLoop, List.foldl_cons]
    exact ih _

/-- Splitting the worker results at the first failed worker. -/
theorem results_split_at_first_error {H E : Type} (results : List (Except E H)) :
    ∀ (i : ℕ) (err : E), results[i]? = some (Except.error err) →
      (∀ j, j < i → ∃ h, results[j]? = some (Except.ok h)) →
      ∃ (hs : List H) (rest : List (Except E H)),
        results = hs.map Except.ok ++ Except.error err :: rest ∧ hs.length = i := by
  induction results with
  | nil => intro i err hi _; simp at hi
  | cons r rs ih =>
    intro i err hi hbefore
    cases i with
    | zero =>
      simp only [List.getElem?_cons_zero, Option.some.injEq] at hi
      subst hi
      exact ⟨[], rs, rfl, rfl⟩
    | succ i =>
      obtain ⟨h, hh⟩ := hbefore 0 (Nat.succ_pos i)
      simp only [List.getElem?_cons_zero, Option.some.injEq] at hh
      subst hh
      obtain ⟨hs, rest, e, hl⟩ := ih i err (by simpa using hi)
        (fun j hj => by simpa using hbefore (j + 1) (Nat.succ_lt_succ hj))
      exact ⟨h :: hs, rest, by rw [e]; rfl, by rw [List.length_cons, hl]⟩

/-- C16, as stated, fails. With two datasets, the first worker succeeding and the
second failing, `RecordValues` returns the error and the running total has changed:
the scratch histogram of the first dataset has been merged into it. -/
theorem circonus_RecordValues_merges_before_error :
    circonusWorkers listHist [dsA, dsNeg] 0 1 = some [Except.ok [3], Except.error ()]
    ∧ circonusHistogram.RecordValues listHist [] [dsA, dsNeg] 0 1 = some ([3], some ())
    ∧ ([3] : List ℚ) ≠ [] := by
  have hw : circonusWorkers listHist [dsA, dsNeg] 0 1
      = some [Except.ok [3], Except.error ()] := by
    simp [circonusWorkers, circonusWorker, sliceRange, listHist, dsA, dsNeg]
    norm_num
  refine ⟨hw, ?_, by simp⟩
  unfold circonusHistogram.RecordValues
  rw [hw]
  rfl

/-- C16, amended. With the workers run to completion before the merge loop: if the
worker of dataset `i` is the first (in dataset order) that failed, the Log-Linear
`RecordValues` returns the error of that worker, and the running total has had
merged into it, in order, exactly the scratch histograms of the `i` datasets before
that position, none at or after it. -/
theorem circonus_RecordValues_first_failure {H E : Type} (lib : circonusllhist H E)
    (merged : H) (datasets : List Dataset) (start stop : ℤ)
    (results : List (Except E H))
    (hw : circonusWorkers lib datasets start stop = some results)
    (i : ℕ) (err : E) (hi : results[i]? = some (Except.error err))
    (hbefore : ∀ j, j < i → ∃ h, results[j]? = some (Except.ok h)) :
    ∃ hs : List H,
      results.take i = hs.map Except.ok ∧ hs.length = i
      ∧ circonusHistogram.RecordValues lib merged datasets start stop
          = some (hs.foldl lib.Merge merged, some err) := by
  obtain ⟨hs, rest, e, hl⟩ := results_split_at_first_error results i err hi hbefore
  refine ⟨hs, ?_, hl, ?_⟩
  · rw [e, ← hl]
    have : (hs.map (Except.ok : H → Except E H)).length = hs.length := List.length_map _ _
    rw [← this, List.take_left]
  · unfold circonusHistogram.RecordValues
    rw [hw]
    simp only [e, circonusMergeLoop_first_error]

/-- Instance of the amended C16: three datasets, the third worker fails, the scratch
histograms of the first two are merged into the running total `[7]`. -/
theorem circonus_RecordValues_first_failure_witness :
    circonusWorkers listHist [dsA, dsB, dsNeg] 0 1
        = some [Except.ok [3], Except.ok [4], Except.error ()]
    ∧ ([Except.ok [3], Except.ok [4], Except.error ()] : List (Except Unit (List ℚ)))[2]?
        = some (Except.error ())
    ∧ ∃ hs : List (List ℚ),
        hs.length = 2
        ∧ circonusHistogram.RecordValues listHist [7] [dsA, dsB, dsNeg] 0 1
            = some (hs.foldl listHist.Merge [7], some ()) := by
  have hw : circonusWorkers listHist [dsA, dsB, dsNeg] 0 1
      = some [Except.ok [3], Except.ok [4], Except.error ()] := by
    simp [circonusWorkers, circonusWorker, sliceRange, listHist, dsA, dsB, dsNeg]
    norm_num
  obtain ⟨hs, -, hl, hr⟩ :=
    circonus_RecordValues_first_failure listHist [7] [dsA, dsB, dsNeg] 0 1 _ hw 2 () rfl
      (by
        intro j hj
        match j, hj with
        | 0, _ => exact ⟨[3], rfl⟩
        | 1, _ => exact ⟨[4], rfl⟩)
  exact ⟨hw, rfl, hs, hl, hr⟩

/-! ## Theorems: latency signals -/

theorem lowLatencyArgs_eq (mixinSeed : ℕ) (count : ℕ) :
    ∀ (idx : ℕ) (rnd : RandSource),
      lowLatencyArgs mixinSeed count idx rnd
        = ((List.range count).map (fun i =>
            ({ name := "lowLatency" ++ toString (idx + i),
               baseSeed := rnd.draws (rnd.pos + i), mixinSeed := mixinSeed,
               min := 1, max := 1500 } : LatencyArgs)),
           { draws := rnd.draws, pos := rnd.pos + count }) := by
  induction count with
  | zero => intro idx rnd; rfl
  | succ count ih =>
    intro idx rnd
    rw [lowLatencyArgs]
    simp only [ih, RandSource.next, List.range_succ_eq_map, List.map_cons, List.map_map,
      Nat.add_zero]
    refine Prod.ext ?_ ?_
    · simp only [List.cons.injEq, true_and]
      apply List.map_congr_left
      intro i _
      simp only [Function.comp, Nat.succ_eq_add_one]
      rw [show idx + 1 + i = idx + (i + 1) by omega,
        show rnd.pos + 1 + i = rnd.pos + (i + 1) by omega]
    · simp only
      rw [show rnd.pos + 1 + count = rnd.pos + (count + 1) by omega]

theorem highLatencyArgs_eq (count : ℕ) :
    ∀ (idx : ℕ) (rnd : RandSource),
      highLatencyArgs count idx rnd
        = ((List.range count).map (fun k =>
            ({ name := "highLatancy" ++ toString (idx + k),
               baseSeed := rnd.draws (rnd.pos + 3 * k),
               mixinSeed := rnd.draws (rnd.pos + 3 * k + 1),
               min := ((rnd.draws (rnd.pos + 3 * k + 2) % 100 : ℕ) : ℚ) + 1500,
               max := 10000 } : LatencyArgs)),
           { draws := rnd.draws, pos := rnd.pos + 3 * count }) := by
  induction count with
  | zero => intro idx rnd; rfl
  | succ count ih =>
    intro idx rnd
    rw [highLatencyArgs]
    simp only [ih, RandSource.next, List.range_succ_eq_map, List.map_cons, List.map_map,
      Nat.mul_zero, Nat.add_zero]
    refine Prod.ext ?_ ?_
    · simp only [List.cons.injEq, true_and]
      apply List.map_congr_left
      intro k _
      simp only [Function.comp, Nat.succ_eq_add_one]
      rw [show idx + 1 + k = idx + (k + 1) by omega,
        show rnd.pos + 1 + 1 + 1 + 3 * k = rnd.pos + 3 * (k + 1) by omega]
    · simp only
      rw [show rnd.pos + 1 + 1 + 1 + 3 * count = rnd.pos + 3 * (count + 1) by omega]

theorem NewLatencyDataset_some (gen : Generator) (name : String) (baseSeed mixinSeed : ℕ)
    (min max : ℚ) (n : ℤ) (hn : 0 < n) :
    ∃ d : Dataset, NewLatencyDataset gen name baseSeed mixinSeed min max n = some d
      ∧ d.dataset = (List.range n.toNat).map (gen baseSeed mixinSeed min max n.toNat) := by
  have hne : (List.range n.toNat).map (gen baseSeed mixinSeed min max n.toNat) ≠ [] := by
    intro hnil
    have := congrArg List.length hnil
    simp at this
    omega
  obtain ⟨mn, mx, hd, -⟩ := NewDataset_spec name _ min max hne
  have h : NewLatencyDataset gen name baseSeed mixinSeed min max n
      = NewDataset name ((List.range n.toNat).map (gen baseSeed mixinSeed min max n.toNat))
          min max := by
    unfold NewLatencyDataset
    rw [if_neg (by omega)]
  rw [h, hd]
  exact ⟨_, rfl, rfl⟩

theorem buildLatencyDatasets_spec (gen : Generator) (n : ℤ) (hn : 0 < n)
    (args : List LatencyArgs) :
    ∃ ds : List Dataset, buildLatencyDatasets gen n args = some ds
      ∧ ds.length = args.length
      ∧ ∀ (i : ℕ) (a : LatencyArgs), args[i]? = some a →
          ds[i]? = NewLatencyDataset gen a.name a.baseSeed a.mixinSeed a.min a.max n := by
  induction args with
  | nil => exact ⟨[], rfl, rfl, by intro i a h; simp at h⟩
  | cons a rest ih =>
    obtain ⟨ds, hds, hlen, hget⟩ := ih
    obtain ⟨d, hd, -⟩ := NewLatencyDataset_some gen a.name a.baseSeed a.mixinSeed a.min a.max n hn
    refine ⟨d :: ds, ?_, by simp [hlen], ?_⟩
    · unfold buildLatencyDatasets
      simp only [hd, hds]
    · intro i b hb
      cases i with
      | zero =>
        simp only [List.getElem?_cons_zero, Option.some.injEq] at hb
        subst hb
        simp [hd]
      | succ i =>
        simp only [List.getElem?_cons_succ] at hb ⊢
        exact hget i b hb

/-- What `NewLatencyDatasets` returns and draws, for `n > 0` and non-negative counts:
the calls of `NewLatencyDataset` behind each returned dataset, with the position in
the stream `rnd` of every seed. -/
theorem NewLatencyDatasets_spec (gen : Generator) (rnd : RandSource) (n datasets outliers : ℤ)
    (hn : 0 < n) (hd : 0 ≤ datasets) (ho : 0 ≤ outliers) :
    ∃ (ds : List Dataset) (rnd' : RandSource),
      NewLatencyDatasets gen rnd n datasets outliers = some (ds, rnd')
      ∧ ds.length = datasets.toNat + outliers.toNat
      ∧ (∀ i, i < datasets.toNat →
          ds[i]? = NewLatencyDataset gen ("lowLatency" ++ toString i)
            (rnd.draws (rnd.pos + 1 + i)) (rnd.draws rnd.pos) 1 1500 n)
      ∧ (∀ k, k < outliers.toNat →
          ds[datasets.toNat + k]?
            = NewLatencyDataset gen ("highLatancy" ++ toString (datasets.toNat + k))
                (rnd.draws (rnd.pos + 1 + datasets.toNat + 3 * k))
                (rnd.draws (rnd.pos + 1 + datasets.toNat + 3 * k + 1))
                (((rnd.draws (rnd.pos + 1 + datasets.toNat + 3 * k + 2) % 100 : ℕ) : ℚ) + 1500)
                10000 n)
      ∧ rnd' = { draws := rnd.draws,
                 pos := rnd.pos + 1 + datasets.toNat + 3 * outliers.toNat } := by
  have hargs : latencySignalArgs rnd datasets.toNat outliers.toNat
      = ((List.range datasets.toNat).map (fun i =>
            ({ name := "lowLatency" ++ toString i,
               baseSeed := rnd.draws (rnd.pos + 1 + i), mixinSeed := rnd.draws rnd.pos,
               min := 1, max := 1500 } : LatencyArgs))
          ++ (List.range outliers.toNat).map (fun k =>
            ({ name := "highLatancy" ++ toString (datasets.toNat + k),
               baseSeed := rnd.draws (rnd.pos + 1 + datasets.toNat + 3 * k),
               mixinSeed := rnd.draws (rnd.pos + 1 + datasets.toNat + 3 * k + 1),
               min := ((rnd.draws (rnd.pos + 1 + datasets.toNat + 3 * k + 2) % 100 : ℕ) : ℚ)
                 + 1500,
               max := 10000 } : LatencyArgs)),
         { draws := rnd.draws, pos := rnd.pos + 1 + datasets.toNat + 3 * outliers.toNat }) := by
    unfold latencySignalArgs
    simp only [lowLatencyArgs_eq, highLatencyArgs_eq, RandSource.next, Nat.zero_add]
  obtain ⟨ds, hds, hlen, hget⟩ := buildLatencyDatasets_spec gen n hn
    (latencySignalArgs rnd datasets.toNat outliers.toNat).1
  refine ⟨ds, (latencySignalArgs rnd datasets.toNat outliers.toNat).2, ?_, ?_, ?_, ?_, ?_⟩
  · unfold NewLatencyDatasets
    rw [if_neg (by omega)]
    simp only [hds]
  · rw [hlen, hargs]
    simp
  · intro i hi
    refine hget i (LatencyArgs.mk ("lowLatency" ++ toString i)
      (rnd.draws (rnd.pos + 1 + i)) (rnd.draws rnd.pos) 1 1500) ?_
    rw [hargs]
    simp only
    rw [List.getElem?_append_left (by simpa using hi)]
    simp [List.getElem?_range hi]
  · intro k hk
    refine hget (datasets.toNat + k)
      (LatencyArgs.mk ("highLatancy" ++ toString (datasets.toNat + k))
        (rnd.draws (rnd.pos + 1 + datasets.toNat + 3 * k))
        (rnd.draws (rnd.pos + 1 + datasets.toNat + 3 * k + 1))
        (((rnd.draws (rnd.pos + 1 + datasets.toNat + 3 * k + 2) % 100 : ℕ) : ℚ) + 1500)
        10000) ?_
    rw [hargs]
    simp only
    rw [List.getElem?_append_right (by simp)]
    simp [List.getElem?_range hk]
  · rw [hargs]

/-- C18, as stated, fails. On the stream of pairwise distinct draws `0, 1, 2, …`, with
two normal signals and one outlier, and a generator that echoes its base seed, mixin
seed and minimum: both normal signals are built from the same mixin draw `0`, and
the sixth draw `5` is used for the lower bound `1505` of the outlier, which is not a
sub-seed. -/
theorem NewLatencyDatasets_shared_mixin :
    ∃ (ds : List Dataset) (rnd' : RandSource),
      NewLatencyDatasets echoGen ⟨fun k => k, 0⟩ 3 2 1 = some (ds, rnd')
      ∧ ds.map (fun d => d.dataset) = [[1, 0, 1], [2, 0, 1], [3, 4, 1505]] := by
  obtain ⟨ds, rnd', h, hlen, hlow, hhigh, -⟩ :=
    NewLatencyDatasets_spec echoGen ⟨fun k => k, 0⟩ 3 2 1 (by norm_num) (by norm_num)
      (by norm_num)
  refine ⟨ds, rnd', h, ?_⟩
  have hlen' : ds.length = 3 := by simpa using hlen
  obtain ⟨d0, d1, d2, rfl⟩ := List.length_eq_three.mp hlen'
  have h0 := hlow 0 (by decide)
  have h1 := hlow 1 (by decide)
  have h2 := hhigh 0 (by decide)
  obtain ⟨e0, he0, hv0⟩ := NewLatencyDataset_some echoGen ("lowLatency" ++ toString 0)
    1 0 1 1500 3 (by norm_num)
  obtain ⟨e1, he1, hv1⟩ := NewLatencyDataset_some echoGen ("lowLatency" ++ toString 1)
    2 0 1 1500 3 (by norm_num)
  obtain ⟨e2, he2, hv2⟩ := NewLatencyDataset_some echoGen ("highLatancy" ++ toString (2 + 0))
    3 4 (((5 % 100 : ℕ) : ℚ) + 1500) 10000 3 (by norm_num)
  simp only [List.getElem?_cons_zero] at h0
  have h1' : some d1 = NewLatencyDataset echoGen ("lowLatency" ++ toString 1) 2 0 1 1500 3 := by
    simpa using h1
  have h2' : some d2 = NewLatencyDataset echoGen ("highLatancy" ++ toString (2 + 0)) 3 4
      (((5 % 100 : ℕ) : ℚ) + 1500) 10000 3 := by
    simpa using h2
  have f0 : d0 = e0 := by
    have : some d0 = some e0 := by rw [← he0]; simpa using h0
    exact Option.some.inj this
  have f1 : d1 = e1 := Option.some.inj (h1'.trans he1)
  have f2 : d2 = e2 := Option.some.inj (h2'.trans he2)
  subst f0 f1 f2
  simp only [List.map_cons, List.map_nil, hv0, hv1, hv2]
  have r3 : List.range (3 : ℤ).toNat = [0, 1, 2] := by decide
  rw [r3]
  simp [echoGen]
  norm_num

/-- C18, amended. For `n > 0` and non-negative counts, `NewLatencyDatasets` returns
`datasets + outliers` datasets. In sequence order each signal is built from a base
seed drawn from `rnd` for it alone (normal signal `i` from draw `1 + i` of the call,
outlier `k` from draw `1 + datasets + 3k`); each outlier is also built from a mixin
seed drawn for it alone (the next draw) and from the lower bound `1500` plus one
further draw reduced modulo `100`. The mixin seed of a normal signal is left open. -/
theorem NewLatencyDatasets_draws (gen : Generator) (rnd : RandSource)
    (n datasets outliers : ℤ) (hn : 0 < n) (hd : 0 ≤ datasets) (ho : 0 ≤ outliers) :
    ∃ (ds : List Dataset) (rnd' : RandSource),
      NewLatencyDatasets gen rnd n datasets outliers = some (ds, rnd')
      ∧ (ds.length : ℤ) = datasets + outliers
      ∧ (∀ i, i < datasets.toNat → ∃ mixinSeed : ℕ,
          ds[i]? = NewLatencyDataset gen ("lowLatency" ++ toString i)
            (rnd.draws (rnd.pos + 1 + i)) mixinSeed 1 1500 n)
      ∧ (∀ k, k < outliers.toNat →
          ds[datasets.toNat + k]?
            = NewLatencyDataset gen ("highLatancy" ++ toString (datasets.toNat + k))
                (rnd.draws (rnd.pos + 1 + datasets.toNat + 3 * k))
                (rnd.draws (rnd.pos + 1 + datasets.toNat + 3 * k + 1))
                (((rnd.draws (rnd.pos + 1 + datasets.toNat + 3 * k + 2) % 100 : ℕ) : ℚ) + 1500)
                10000 n)
      ∧ rnd'.draws = rnd.draws := by
  obtain ⟨ds, rnd', h, hlen, hlow, hhigh, hr⟩ :=
    NewLatencyDatasets_spec gen rnd n datasets outliers hn hd ho
  refine ⟨ds, rnd', h, ?_, fun i hi => ⟨_, hlow i hi⟩, hhigh, by rw [hr]⟩
  rw [hlen]
  push_cast
  rw [Int.toNat_of_nonneg hd, Int.toNat_of_nonneg ho]

/-- Instance of the amended C18: three normal signals and two outliers of ten samples
each, on the stream of draws `0, 1, 2, …`. -/
theorem NewLatencyDatasets_draws_witness :
    (0 : ℤ) < 10 ∧ (0 : ℤ) ≤ 3 ∧ (0 : ℤ) ≤ 2
    ∧ ∃ (ds : List Dataset) (rnd' : RandSource),
        NewLatencyDatasets echoGen ⟨fun k => k, 0⟩ 10 3 2 = some (ds, rnd')
        ∧ (ds.length : ℤ) = 3 + 2 := by
  obtain ⟨ds, rnd', h, hlen, -⟩ :=
    NewLatencyDatasets_draws echoGen ⟨fun k => k, 0⟩ 10 3 2 (by norm_num) (by norm_num)
      (by norm_num)
  exact ⟨by norm_num, by norm_num, by norm_num, ds, rnd', h, hlen⟩

/-! ## Theorems: value at a quantile and monotonicity -/

theorem insertionSort_dsA :
    ([3, 1, 2, 5] : List ℚ).insertionSort (· ≤ ·) = [1, 2, 3, 5] := by
  simp only [List.insertionSort, List.orderedInsert]
  norm_num [List.orderedInsert]

/-- C21 (the code departs from the claim). A fresh Exact histogram records the four
samples `3, 1, 2, 5`. At the fraction `0.5` the sample value at that quantile of the
sorted buffer `1, 2, 3, 5` is `3`, which is what `Quantiles([0.5])` returns, but
`ValueAtQuantile(0.5)` returns `2`: the rank position, the second result of
`Quantile`. -/
theorem preciseHistogram_ValueAtQuantile_returns_rank :
    ∃ (st : preciseHistogram) (rnd' : RandSource),
      runOps [.recordValues [dsA] 0 4] (NewPreceiseHist, ⟨fun _ => 0, 0⟩) = some (st, rnd')
      ∧ st.merged = [3, 1, 2, 5]
      ∧ (∃ (h : preciseHistogram) (r : RandSource),
          st.ValueAtQuantile rnd' (1 / 2) = some (2, h, r))
      ∧ (∃ (h : preciseHistogram) (r : RandSource),
          st.Quantiles rnd' [1 / 2] = some ([3], h, r))
      ∧ (2 : ℤ) ≠ ⌊(3 : ℚ)⌋ := by
  have hrun : runOps [.recordValues [dsA] 0 4] (NewPreceiseHist, ⟨fun _ => 0, 0⟩)
      = some ({ merged := [3, 1, 2, 5], sorted := false }, ⟨fun _ => 0, 0⟩) := by
    simp [runOps, PreciseOp.apply, preciseHistogram.RecordValues, preciseAppend, sliceRange,
      dsA, NewPreceiseHist]
  have hR : Round ((([1, 2, 3, 5] : List ℚ).length : ℚ) * (1 / 2)) = 2 :=
    Round_eq_of_bounds (by norm_num) (by norm_num) (by norm_num)
  have hq : Quantile [1, 2, 3, 5] (1 / 2) = some (3, 2) := by
    have h := Quantile_eq_of_rank [1, 2, 3, 5] (1 / 2) 2 (by simp) (by rw [hR]; simp)
    simpa using h
  obtain ⟨e1, -⟩ := ensureSorted_spec { merged := [3, 1, 2, 5], sorted := false }
    ⟨fun _ => 0, 0⟩ (by intro hc; cases hc)
  rw [insertionSort_dsA] at e1
  refine ⟨_, _, hrun, rfl,
    ⟨((preciseHistogram.mk [3, 1, 2, 5] false).ensureSorted ⟨fun _ => 0, 0⟩).1,
      ((preciseHistogram.mk [3, 1, 2, 5] false).ensureSorted ⟨fun _ => 0, 0⟩).2, ?_⟩,
    ⟨((preciseHistogram.mk [3, 1, 2, 5] false).ensureSorted ⟨fun _ => 0, 0⟩).1,
      ((preciseHistogram.mk [3, 1, 2, 5] false).ensureSorted ⟨fun _ => 0, 0⟩).2, ?_⟩,
    by norm_num⟩
  · unfold preciseHistogram.ValueAtQuantile
    rw [e1, hq]
    rfl
  · unfold preciseHistogram.Quantiles
    rw [e1]
    simp only [Hdrbench.Quantiles, hq]
    rfl

theorem Round_mono_of_nonneg {x y : ℚ} (hx : 0 ≤ x) (hxy : x ≤ y) : Round x ≤ Round y := by
  unfold Round
  rw [if_neg (not_lt.mpr hx), if_neg (not_lt.mpr (le_trans hx hxy))]
  exact Int.floor_le_floor (by linarith)

/-- On a non-empty ascending list, a larger fraction selects a rank and a value that
are not smaller. -/
theorem Quantile_mono (v : List ℚ) (hv : v ≠ []) (hs : v.Sorted (· ≤ ·)) (f1 f2 : ℚ)
    (h0 : 0 ≤ f1) (h12 : f1 ≤ f2) :
    ∃ (x1 x2 : ℚ) (k1 k2 : ℤ),
      Quantile v f1 = some (x1, k1) ∧ Quantile v f2 = some (x2, k2)
      ∧ k1 ≤ k2 ∧ x1 ≤ x2 := by
  obtain ⟨k1, hk1, e1, -, q1⟩ := Quantile_rank_exists v f1 hv h0
  obtain ⟨k2, hk2, e2, -, q2⟩ := Quantile_rank_exists v f2 hv (le_trans h0 h12)
  have hR : Round ((v.length : ℚ) * f1) ≤ Round ((v.length : ℚ) * f2) :=
    Round_mono_of_nonneg (mul_nonneg (Nat.cast_nonneg _) h0)
      (mul_le_mul_of_nonneg_left h12 (Nat.cast_nonneg _))
  have hk : (k1 : ℤ) ≤ (k2 : ℤ) := by
    rw [e1, e2]
    exact min_le_min hR (le_refl _)
  have hk' : k1 ≤ k2 := by exact_mod_cast hk
  refine ⟨v[k1], v[k2], k1, k2, q1, q2, hk, ?_⟩
  rcases Nat.lt_or_ge k1 k2 with h | h
  · exact List.pairwise_iff_getElem.mp hs k1 k2 hk1 hk2 h
  · have : k1 = k2 := by omega
    subst this
    exact le_refl _

theorem Quantiles_mem (v : List ℚ) :
    ∀ (q out : List ℚ), Quantiles v q = some out →
      ∀ y ∈ out, ∃ f ∈ q, ∃ k : ℤ, Quantile v f = some (y, k) := by
  intro q
  induction q with
  | nil =>
    intro out h y hy
    simp only [Quantiles, Option.some.injEq] at h
    subst h
    simp at hy
  | cons f fs ih =>
    intro out h y hy
    unfold Quantiles at h
    cases hq : Quantile v f with
    | none => simp [hq] at h
    | some p =>
      cases hr : Quantiles v fs with
      | none => simp [hq, hr] at h
      | some rest =>
        simp only [hq, hr, Option.some.injEq] at h
        subst h
        rcases List.mem_cons.mp hy with h1 | h1
        · exact ⟨f, List.mem_cons_self _ _, p.2, by rw [hq, h1]⟩
        · obtain ⟨f', hf', k, hk⟩ := ih rest hr y h1
          exact ⟨f', List.mem_cons_of_mem _ hf', k, hk⟩

/-- C22. `Quantile` is monotone in the fraction: on a non-empty ascending list, for
`0 ≤ f1 ≤ f2 ≤ 1` the rank and the value returned for `f1` are at most those returned
for `f2`; and `Quantiles` applied to an ascending list of fractions in `[0,1]` returns
an ascending vector. -/
theorem Quantile_monotone (v : List ℚ) (hv : v ≠ []) (hs : v.Sorted (· ≤ ·)) :
    (∀ f1 f2 : ℚ, 0 ≤ f1 → f1 ≤ f2 → f2 ≤ 1 →
      ∃ (x1 x2 : ℚ) (k1 k2 : ℤ),
        Quantile v f1 = some (x1, k1) ∧ Quantile v f2 = some (x2, k2)
        ∧ k1 ≤ k2 ∧ x1 ≤ x2)
    ∧ (∀ q : List ℚ, (∀ f ∈ q, 0 ≤ f ∧ f ≤ 1) → q.Sorted (· ≤ ·) →
        ∃ out : List ℚ, Quantiles v q = some out ∧ out.length = q.length
          ∧ out.Sorted (· ≤ ·)) := by
  refine ⟨fun f1 f2 h0 h12 _ => Quantile_mono v hv hs f1 f2 h0 h12, ?_⟩
  intro q
  induction q with
  | nil => intro _ _; exact ⟨[], rfl, rfl, List.sorted_nil⟩
  | cons f fs ih =>
    intro hq hqs
    obtain ⟨hfle, hfs⟩ := List.sorted_cons.mp hqs
    obtain ⟨rest, hrest, hlen, hsorted⟩ :=
      ih (fun g hg => hq g (List.mem_cons_of_mem _ hg)) hfs
    obtain ⟨k, hk, -, -, hqf⟩ := Quantile_rank_exists v f hv (hq f (List.mem_cons_self _ _)).1
    refine ⟨v[k] :: rest, ?_, by simp [hlen], ?_⟩
    · unfold Quantiles
      rw [hqf]
      simp only [hrest]
    · refine List.sorted_cons.mpr ⟨?_, hsorted⟩
      intro y hy
      obtain ⟨g, hg, kg, hkg⟩ := Quantiles_mem v fs rest hrest y hy
      obtain ⟨x1, x2, k1, k2, e1, e2, -, hx⟩ :=
        Quantile_mono v hv hs f g (hq f (List.mem_cons_self _ _)).1 (hfle g hg)
      rw [hqf] at e1
      rw [hkg] at e2
      cases e1
      cases e2
      exact hx

/-- Instance of C22 on the sorted test vector `s1` and the ascending grid of the test. -/
theorem Quantile_monotone_witness :
    s1Sorted ≠ [] ∧ s1Sorted.Sorted (· ≤ ·)
    ∧ (∀ f ∈ ([0, 1 / 4, 1 / 2, 95 / 100, 99 / 100, 1] : List ℚ), 0 ≤ f ∧ f ≤ 1)
    ∧ ([0, 1 / 4, 1 / 2, 95 / 100, 99 / 100, 1] : List ℚ).Sorted (· ≤ ·)
    ∧ (∃ out : List ℚ,
        Quantiles s1Sorted [0, 1 / 4, 1 / 2, 95 / 100, 99 / 100, 1] = some out
        ∧ out.Sorted (· ≤ ·))
    ∧ ∃ (x1 x2 : ℚ) (k1 k2 : ℤ),
        Quantile s1Sorted (1 / 4) = some (x1, k1) ∧ Quantile s1Sorted (1 / 2) = some (x2, k2)
        ∧ k1 ≤ k2 ∧ x1 ≤ x2 := by
  have hne : s1Sorted ≠ [] := by simp [s1Sorted]
  have hs : s1Sorted.Sorted (· ≤ ·) := by
    simp only [s1Sorted, List.Sorted, List.pairwise_cons, List.mem_cons, List.mem_singleton,
      List.not_mem_nil, or_false, forall_eq_or_imp, forall_eq, List.Pairwise.nil,
      IsEmpty.forall_iff, implies_true, and_true]
    norm_num
  have hq : ∀ f ∈ ([0, 1 / 4, 1 / 2, 95 / 100, 99 / 100, 1] : List ℚ), 0 ≤ f ∧ f ≤ 1 := by
    intro f hf
    simp only [List.mem_cons, List.mem_singleton, List.not_mem_nil, or_false] at hf
    rcases hf with h | h | h | h | h | h <;> subst h <;> norm_num
  have hqs : ([0, 1 / 4, 1 / 2, 95 / 100, 99 / 100, 1] : List ℚ).Sorted (· ≤ ·) := by
    simp only [List.Sorted, List.pairwise_cons, List.mem_cons, List.mem_singleton,
      List.not_mem_nil, or_false, forall_eq_or_imp, forall_eq, List.Pairwise.nil,
      IsEmpty.forall_iff, implies_true, and_true]
    norm_num
  have t := Quantile_monotone s1Sorted hne hs
  obtain ⟨out, h1, -, h2⟩ := t.2 _ hq hqs
  exact ⟨hne, hs, hq, hqs, ⟨out, h1, h2⟩,
    t.1 (1 / 4) (1 / 2) (by norm_num) (by norm_num) (by norm_num)⟩

end Hdrbench
